import Mathlib

/-!
# Robin Hood hash table (`src/table.h`)

A shallow embedding of the `HashMap<KeyType, ValueType, Hash>` class template and a
verification of its contract.

Modelling conventions.

* `std::vector<Bucket>` is a `List (Bucket K V)`; a `std::vector` iterator is the
  offset `iterv - firstv`, so `lastv` is the length of the list.
* `size_t` values are natural numbers.  Every counter of a state satisfying the
  invariant `Inv` is bounded by the largest capacity of the schedule (2295859), so
  none of `10 * size_`, `100 * size_`, `9 * capacity_`, `++distance` wraps around;
  `--size_` and `distance - 1` are only executed on a positive value there (`erase`
  decrements after a key was found, the shift loop tests `distance > 0`).
* An operation returns `none` where the C++ code has no defined result: an
  out-of-range element access (`PRIME_CAPS_[16]`, dereferencing `end()`), or a loop
  that does not stop.  Loops carry a fuel argument; the theorems show that the fuel
  handed out by the callers is never exhausted on a state satisfying `Inv`.
* `Hash` is a function `K → Nat`, `operator==` on keys is decidable equality and a
  default-constructed key or value is `default`.
-/

namespace RobinHood

/-- The `Bucket` struct: the stored pair, the probe distance and the occupancy flag. -/
structure Bucket (K V : Type) where
  item : K × V
  distance : Nat
  empty : Bool

/-- The constructor `Bucket()`: value-initialised pair, `distance = 0`, `empty = true`. -/
instance instInhabitedBucket {K V : Type} [Inhabited K] [Inhabited V] : Inhabited (Bucket K V) :=
  ⟨⟨(default, default), 0, true⟩⟩

/-- The private data members of `HashMap`. -/
structure HashMap (K V : Type) where
  hasher_ : K → Nat
  table_ : List (Bucket K V)
  size_ : Nat
  capacity_ : Nat
  cap_index_ : Nat

/-- The member `PRIME_CAPS_`. -/
def PRIME_CAPS_ : List Nat :=
  [67, 137, 277, 557, 1117, 2237, 4481, 8963,
   17929, 35863, 71741, 143483, 286973, 573953, 1147921, 2295859]

/-- The idiom `if (iterv == lastv) iterv = firstv;` on offsets. -/
def wrap (lastv iterv : Nat) : Nat := if iterv = lastv then 0 else iterv

section Operations

variable {K V : Type} [DecidableEq K] [Inhabited K] [Inhabited V]

/-- `initialize_()`: `size_ = 0`, `capacity_ = PRIME_CAPS_[cap_index_]`, and the
table is cleared and resized to `capacity_` default buckets. -/
def initialize_ (s : HashMap K V) : Option (HashMap K V) :=
  match PRIME_CAPS_[s.cap_index_]? with
  | none => none
  | some c =>
    some { s with size_ := 0, capacity_ := c, table_ := List.replicate c default }

/-- `mod_hash_(key)`. -/
def mod_hash_ (s : HashMap K V) (key : K) : Nat := s.hasher_ key % s.capacity_

/-- `overload_()`. -/
def overload_ (s : HashMap K V) : Bool := decide (9 * s.capacity_ ≤ 10 * s.size_)

/-- `underload_()`. -/
def underload_ (s : HashMap K V) : Bool :=
  decide (0 < s.cap_index_) && decide (100 * s.size_ < s.capacity_)

/-- The loop of `first_used_()`, started at offset `iterv`. -/
def first_used_loop (t : List (Bucket K V)) : Nat → Nat → Option Nat
  | 0, _ => none
  | fuel + 1, iterv =>
    if iterv = t.length then some iterv
    else
      match t[iterv]? with
      | none => none
      | some b => if b.empty then first_used_loop t fuel (iterv + 1) else some iterv

/-- `first_used_()`: offset of the first occupied bucket, or the length of the table. -/
def first_used_ (s : HashMap K V) : Option Nat :=
  first_used_loop s.table_ (s.table_.length + 1) 0

/-- `hm_iter::operator++()` on the offset `iterv` of an iterator into `t`. -/
def hm_iter_next (t : List (Bucket K V)) : Nat → Nat → Option Nat
  | 0, _ => none
  | fuel + 1, iterv =>
    if iterv = t.length then some iterv
    else if iterv + 1 = t.length then some (iterv + 1)
    else
      match t[iterv + 1]? with
      | none => none
      | some b => if b.empty then hm_iter_next t fuel (iterv + 1) else some (iterv + 1)

/-- The loop `for (auto it = first; it != last; ++it)` started at the iterator offset
`it`: the offsets the iterator takes, each with the pair `*it`. -/
def iterate_loop (t : List (Bucket K V)) : Nat → Nat → Option (List (Nat × (K × V)))
  | 0, _ => none
  | fuel + 1, it =>
    if it = t.length then some []
    else
      match t[it]?, hm_iter_next t (t.length + 1) it with
      | some b, some it' => (iterate_loop t fuel it').map (fun visited => (it, b.item) :: visited)
      | _, _ => none

/-- A traversal `for (auto it = begin(); it != end(); ++it)` of the container. -/
def iterate (s : HashMap K V) : Option (List (Nat × (K × V))) :=
  match first_used_ s with
  | none => none
  | some it => iterate_loop s.table_ (s.table_.length + 1) it

/-- The loop of `find_index`. -/
def find_loop (t : List (Bucket K V)) (capacity_ : Nat) (key : K) :
    Nat → Nat → Nat → Option Nat
  | 0, _, _ => none
  | fuel + 1, iterv, distance =>
    match t[iterv]? with
    | none => none
    | some b =>
      if b.empty = false ∧ distance ≤ b.distance then
        if b.item.1 = key then some iterv
        else find_loop t capacity_ key fuel (wrap t.length (iterv + 1)) (distance + 1)
      else some capacity_

/-- `find_index(key)`: the offset of the bucket holding `key`, or `capacity_`. -/
def find_index (s : HashMap K V) (key : K) : Option Nat :=
  find_loop s.table_ s.capacity_ key (s.table_.length + 1) (mod_hash_ s key) 0

/-- The loop `while (!iterv->empty && iterv->distance >= distance)` of `insert`;
returns the offset and the distance at which it stops. -/
def probe (t : List (Bucket K V)) : Nat → Nat → Nat → Option (Nat × Nat)
  | 0, _, _ => none
  | fuel + 1, iterv, distance =>
    match t[iterv]? with
    | none => none
    | some b =>
      if b.empty = false ∧ distance ≤ b.distance then
        probe t fuel (wrap t.length (iterv + 1)) (distance + 1)
      else some (iterv, distance)

/-- `set(iterv, item, distance)`. -/
def set (t : List (Bucket K V)) (iterv : Nat) (item : K × V) (distance : Nat) :
    List (Bucket K V) :=
  t.set iterv ⟨item, distance, false⟩

/-- The part of `insert(item, distance, after)` that works on the table (lines
197-226), for a start offset `index`: probe, store, and re-insert a displaced
occupant by the recursive call `insert(prev_item, prev_dist + 1, index + 1)`. -/
def insert_at : Nat → List (Bucket K V) → K × V → Nat → Nat → Option (List (Bucket K V))
  | 0, _, _, _, _ => none
  | fuel + 1, t, item, distance, index =>
    match probe t (t.length + 1) (wrap t.length index) distance with
    | none => none
    | some (iterv, distance) =>
      match t[iterv]? with
      | none => none
      | some prev =>
        if prev.empty then some (set t iterv item distance)
        else insert_at fuel (set t iterv item distance) prev.item (prev.distance + 1)
          (iterv + 1)

/-- `create_(first, last)`: `initialize_()` followed by `insert(*it)` for every
element of the range.  The insertion is the parameter `ins`, because `insert`
itself calls `rehash_` and `create_`. -/
def create_ (ins : HashMap K V → K × V → Option (HashMap K V)) (s : HashMap K V)
    (items : List (K × V)) : Option (HashMap K V) :=
  match initialize_ s with
  | none => none
  | some s0 => items.foldlM ins s0

/-- `rehash_()`: copy `*it` for `begin() .. end()` into `items`, then `create_` from
them. -/
def rehash_ (ins : HashMap K V → K × V → Option (HashMap K V)) (s : HashMap K V) :
    Option (HashMap K V) :=
  match iterate s with
  | none => none
  | some visited => create_ ins s (visited.map Prod.snd)

/-- The public call `insert(item)` (`distance = 0`, `after = -1`).  The first
argument bounds the nesting of the recursion `insert → rehash_ → create_ → insert`:
every level increments `cap_index_`, and `initialize_` has no result once
`cap_index_` reaches the length 16 of the schedule. -/
def insert_fuel : Nat → HashMap K V → K × V → Option (HashMap K V)
  | fuel, s, item =>
    match find_index s item.1 with
    | none => none
    | some index =>
      if index ≠ s.table_.length then some s
      else
        match insert_at s.table_.length s.table_ item 0 (mod_hash_ s item.1) with
        | none => none
        | some t =>
          let s1 : HashMap K V := { s with table_ := t, size_ := s.size_ + 1 }
          if overload_ s1 then
            match fuel with
            | 0 => none
            | fuel + 1 =>
              rehash_ (insert_fuel fuel) { s1 with cap_index_ := s1.cap_index_ + 1 }
          else some s1

/-- `insert(item)`: 16 levels of nesting are never used up, since the sixteenth
increment of `cap_index_` already leaves the schedule. -/
def insert (s : HashMap K V) (item : K × V) : Option (HashMap K V) :=
  insert_fuel PRIME_CAPS_.length s item

/-- The backward-shift loop of `erase` (lines 263-276). -/
def shift_loop : Nat → List (Bucket K V) → Nat → Nat → Option (List (Bucket K V))
  | 0, _, _, _ => none
  | fuel + 1, t, prev_iterv, iterv =>
    match t[iterv]? with
    | none => none
    | some b =>
      if b.empty = false ∧ 0 < b.distance then
        if prev_iterv < t.length then
          shift_loop fuel ((set t prev_iterv b.item (b.distance - 1)).set iterv { b with empty := true })
            (wrap t.length (prev_iterv + 1)) (wrap t.length (iterv + 1))
        else none
      else some t

/-- `erase(key)`: `find`, vacate the bucket found, run the backward-shift loop,
`--size_`, and shrink by one schedule step when `underload_()` holds. -/
def erase (s : HashMap K V) (key : K) : Option (HashMap K V) :=
  match find_index s key with
  | none => none
  | some index =>
    if index = s.table_.length then some s
    else
      match s.table_[index]? with
      | none => none
      | some b =>
        let t0 := s.table_.set index { b with empty := true }
        match shift_loop t0.length t0 index (wrap t0.length (index + 1)) with
        | none => none
        | some t =>
          let s1 : HashMap K V := { s with table_ := t, size_ := s.size_ - 1 }
          if underload_ s1 then rehash_ insert { s1 with cap_index_ := s1.cap_index_ - 1 }
          else some s1

/-- `clear()`. -/
def clear (s : HashMap K V) : HashMap K V :=
  { s with size_ := 0, cap_index_ := 0, capacity_ := PRIME_CAPS_[0],
           table_ := List.replicate PRIME_CAPS_[0] default }

/-- The constructor `HashMap(hasher)`: `cap_index_` is 0 by its member initialiser,
`size_`, `capacity_` and `table_` are assigned by `initialize_()`. -/
def construct (hasher : K → Nat) : Option (HashMap K V) :=
  initialize_ { hasher_ := hasher, table_ := [], size_ := 0, capacity_ := 0, cap_index_ := 0 }

/-- The constructors `HashMap(first, last, hasher)` and `HashMap(init, hasher)`. -/
def construct_range (items : List (K × V)) (hasher : K → Nat) : Option (HashMap K V) :=
  create_ insert { hasher_ := hasher, table_ := [], size_ := 0, capacity_ := 0, cap_index_ := 0 }
    items

/-- `operator=(other)`; `same_object` is the outcome of the test `&other == this`. -/
def assign (self other : HashMap K V) (same_object : Bool) : Option (HashMap K V) :=
  if same_object then some self
  else
    match iterate other with
    | none => none
    | some visited => create_ insert (clear self) (visited.map Prod.snd)

/-- `size()`. -/
def size (s : HashMap K V) : Nat := s.size_

/-- `end()` as an iterator offset. -/
def end_ (s : HashMap K V) : Nat := s.table_.length

/-- `begin()` as an iterator offset. -/
def begin_ (s : HashMap K V) : Option Nat := first_used_ s

/-- `find(key)` as an iterator offset. -/
def find (s : HashMap K V) (key : K) : Option Nat := find_index s key

/-- `operator*` of an iterator at offset `iterv`: the stored pair; dereferencing
`end()` has no result. -/
def deref (s : HashMap K V) (iterv : Nat) : Option (K × V) :=
  (s.table_[iterv]?).map (fun b => b.item)

/-- `operator[](key)`: the state afterwards and the offset of the bucket whose value
slot is returned by reference. -/
def subscript (s : HashMap K V) (key : K) : Option (HashMap K V × Nat) :=
  match find s key with
  | none => none
  | some it =>
    if it = end_ s then
      match insert s (key, default) with
      | none => none
      | some s1 =>
        match find s1 key with
        | none => none
        | some it1 => if it1 < s1.table_.length then some (s1, it1) else none
    else if it < s.table_.length then some (s, it) else none

/-- The outcomes of `at` other than a value. -/
inductive Failure where
  | out_of_range
  | undefined
  deriving DecidableEq, Repr

/-- `at(key)`: throws `std::out_of_range` when `find(key) == end()`. -/
def HashMap.at (s : HashMap K V) (key : K) : Except Failure V :=
  match find s key with
  | none => .error .undefined
  | some it =>
    if it = end_ s then .error .out_of_range
    else
      match deref s it with
      | none => .error .undefined
      | some item => .ok item.2

end Operations

end RobinHood

namespace RobinHood
section Predicates
variable {K V : Type}

/-- The pair a bucket contributes to a traversal: nothing when it is empty. -/
def slot (b : Bucket K V) : List (K × V) := if b.empty then [] else [b.item]

/-- The live entries of a table in physical order. -/
def entries (t : List (Bucket K V)) : List (K × V) := t.flatMap slot

/-- The occupied buckets of a table whose first bucket has offset `base`, in physical
order: each offset with the pair stored there. -/
def indexed (base : Nat) : List (Bucket K V) → List (Nat × (K × V))
  | [] => []
  | b :: t => (if b.empty then [] else [(base, b.item)]) ++ indexed (base + 1) t

/-- Number of steps from offset `i` forward (with wrap-around) to offset `e`. -/
def gap (n i e : Nat) : Nat := if i ≤ e then e - i else e + n - i

/-- Some bucket of the table is empty. -/
def HasEmpty (t : List (Bucket K V)) : Prop := ∃ (e : Nat) (b : Bucket K V), t[e]? = some b ∧ b.empty = true

/-- The Robin Hood invariant of a bucket array. -/
structure TableInv (hasher : K → Nat) (t : List (Bucket K V)) : Prop where
  home : ∀ (i : Nat) (b : Bucket K V), t[i]? = some b → b.empty = false →
    (hasher b.item.1 + b.distance) % t.length = i
  order : ∀ (i : Nat) (b c : Bucket K V), t[i]? = some b → t[wrap t.length (i + 1)]? = some c →
    c.empty = false → c.distance ≠ 0 → b.empty = false ∧ c.distance ≤ b.distance + 1
  distinct : ∀ (i j : Nat) (b c : Bucket K V), t[i]? = some b → t[j]? = some c → b.empty = false →
    c.empty = false → b.item.1 = c.item.1 → i = j

/-- The key `k` is stored in no occupied bucket of the table. -/
def Absent (t : List (Bucket K V)) (k : K) : Prop :=
  ∀ (i : Nat) (b : Bucket K V), t[i]? = some b → b.empty = false → b.item.1 ≠ k

/-- An entry carried by the insertion walk with distance `d` and about to be compared
with the bucket at offset `i` has passed a bucket that is at least as far from home. -/
def CarriedOrder (t : List (Bucket K V)) (i d : Nat) : Prop :=
  d ≠ 0 → ∀ (j : Nat) (b : Bucket K V), wrap t.length (j + 1) = i → t[j]? = some b →
    b.empty = false ∧ d ≤ b.distance + 1

/-- The invariant of the backward-shift loop of `erase`: the bucket at offset `hole`
has been vacated, the Robin Hood order holds for every pair of neighbours except the
hole and its successor, and the buckets on either side of the hole differ by at most
two in distance. -/
structure HoleInv (hasher : K → Nat) (t : List (Bucket K V)) (hole : Nat) : Prop where
  home : ∀ (i : Nat) (b : Bucket K V), t[i]? = some b → b.empty = false →
    (hasher b.item.1 + b.distance) % t.length = i
  order : ∀ (i : Nat) (b c : Bucket K V), i ≠ hole → t[i]? = some b →
    t[wrap t.length (i + 1)]? = some c → c.empty = false → c.distance ≠ 0 →
    b.empty = false ∧ c.distance ≤ b.distance + 1
  skip : ∀ (i : Nat) (b c : Bucket K V), wrap t.length (i + 1) = hole → t[i]? = some b →
    t[wrap t.length (hole + 1)]? = some c → c.empty = false → 2 ≤ c.distance →
    b.empty = false ∧ c.distance ≤ b.distance + 2
  distinct : ∀ (i j : Nat) (b c : Bucket K V), t[i]? = some b → t[j]? = some c →
    b.empty = false → c.empty = false → b.item.1 = c.item.1 → i = j
  vacant : ∃ b : Bucket K V, t[hole]? = some b ∧ b.empty = true

end Predicates
end RobinHood

namespace RobinHood
section StatePredicates
variable {K V : Type}

/-- Structural invariant of a container state: the bucket array has `capacity_`
buckets, `size_` counts the occupied ones, and the array satisfies the Robin Hood
invariant for the container's hash function. -/
structure Core (s : HashMap K V) : Prop where
  length_eq : s.table_.length = s.capacity_
  size_eq : s.size_ = (entries s.table_).length
  table : TableInv s.hasher_ s.table_

/-- The data-model invariants: `Core`, `capacity_ = PRIME_CAPS_[cap_index_]` (so
`cap_index_ < 16`), and the load factor lies between the shrink floor and 0.9. -/
structure Inv (s : HashMap K V) : Prop where
  core : Core s
  capacity_eq : PRIME_CAPS_[s.cap_index_]? = some s.capacity_
  upper : 10 * s.size_ ≤ 9 * s.capacity_
  lower : s.cap_index_ = 0 ∨ s.capacity_ ≤ 100 * s.size_

/-- An insertion of a new key into `s` exhausts the capacity schedule: the table is at
the last capacity and the new size reaches the growth threshold. -/
def Exhausts (s : HashMap K V) : Prop :=
  s.cap_index_ + 1 = PRIME_CAPS_.length ∧ 9 * s.capacity_ ≤ 10 * (s.size_ + 1)

end StatePredicates
end RobinHood

namespace RobinHood
section Reachability
variable {K V : Type} [DecidableEq K] [Inhabited K] [Inhabited V]

/-- The container states reachable from a freshly constructed container by calls of
`insert`, `erase`, `operator[]` and `clear` that return. -/
inductive Reachable : HashMap K V → Prop
  | construct (hasher : K → Nat) (s : HashMap K V) :
      construct hasher = some s → Reachable s
  | insert (s : HashMap K V) (item : K × V) (s' : HashMap K V) :
      Reachable s → insert s item = some s' → Reachable s'
  | erase (s : HashMap K V) (key : K) (s' : HashMap K V) :
      Reachable s → erase s key = some s' → Reachable s'
  | subscript (s : HashMap K V) (key : K) (s' : HashMap K V) (it : Nat) :
      Reachable s → subscript s key = some (s', it) → Reachable s'
  | clear (s : HashMap K V) : Reachable s → Reachable (clear s)

end Reachability
end RobinHood

namespace RobinHood
section Samples

/-- As many pairs with pairwise different keys as a container can hold: 2066273 is the
largest `n` with `10 * n < 9 * 2295859`. -/
def filling_items : List (Nat × Nat) := (List.range 2066273).map (fun i => (i, 0))

/-- The state of `HashMap<Nat, Nat>` constructed with the identity as hash function. -/
def sample_empty : HashMap Nat Nat :=
  { hasher_ := fun k => k, table_ := List.replicate 67 default, size_ := 0, capacity_ := 67,
    cap_index_ := 0 }

/-- The state of `sample_empty` after `insert((3, 4))`. -/
def sample_one : HashMap Nat Nat :=
  { hasher_ := fun k => k, table_ := (List.replicate 67 default).set 3 ⟨(3, 4), 0, false⟩,
    size_ := 1, capacity_ := 67, cap_index_ := 0 }

/-- The state of `sample_one` after `insert((70, 5))`: key 70 has the ideal slot 3 and
is stored one bucket further. -/
def sample_two : HashMap Nat Nat :=
  { hasher_ := fun k => k,
    table_ := ((List.replicate 67 default).set 3 ⟨(3, 4), 0, false⟩).set 4 ⟨(70, 5), 1, false⟩,
    size_ := 2, capacity_ := 67, cap_index_ := 0 }

end Samples
end RobinHood

namespace RobinHood
section MoreSamples

/-- The state of `sample_empty` after `insert((66, 1))`: the last bucket is occupied. -/
def sample_last : HashMap Nat Nat :=
  { hasher_ := fun k => k, table_ := (List.replicate 67 default).set 66 ⟨(66, 1), 0, false⟩,
    size_ := 1, capacity_ := 67, cap_index_ := 0 }

/-- The state of `sample_last` after `insert((133, 2))`: key 133 has the ideal slot 66
and is stored, after the wrap-around, in bucket 0 with distance 1. -/
def sample_wrap : HashMap Nat Nat :=
  { hasher_ := fun k => k,
    table_ := ((List.replicate 67 default).set 66 ⟨(66, 1), 0, false⟩).set 0 ⟨(133, 2), 1, false⟩,
    size_ := 2, capacity_ := 67, cap_index_ := 0 }

/-- Sixty-one pairs with pairwise different keys. -/
def sample_items : List (Nat × Nat) := (List.range 61).map (fun i => (i, i + 100))

end MoreSamples
end RobinHood

namespace RobinHood
section Basic
variable {K V : Type}

theorem wrap_succ_lt {n i : Nat} (h : i < n) : wrap n (i + 1) < n := by
  unfold wrap; split_ifs <;> omega

theorem wrap_of_lt {n i : Nat} (h : i < n) : wrap n i = i := by
  unfold wrap; split_ifs <;> omega

theorem wrap_succ_inj {n i j : Nat} (h : wrap n (i + 1) = wrap n (j + 1)) : i = j := by
  unfold wrap at h; split_ifs at h <;> omega

theorem wrap_succ_mod {n : Nat} (a : Nat) (hn : 0 < n) :
    wrap n (a % n + 1) = (a + 1) % n := by
  have h1 : a % n < n := Nat.mod_lt _ hn
  have h2 : (a + 1) % n = (a % n + 1) % n := by simp [Nat.add_mod]
  rw [h2]
  unfold wrap
  split_ifs with h
  · rw [h, Nat.mod_self]
  · exact (Nat.mod_eq_of_lt (show a % n + 1 < n by omega)).symm

theorem gap_lt {n i e : Nat} (hi : i < n) (he : e < n) : gap n i e < n := by
  unfold gap; split_ifs <;> omega

theorem gap_step {n i e : Nat} (hi : i < n) (he : e < n) (hne : i ≠ e) :
    gap n (wrap n (i + 1)) e + 1 = gap n i e := by
  unfold gap wrap; split_ifs <;> omega

theorem gap_self (n i : Nat) : gap n i i = 0 := by simp [gap]

theorem mod_add_gap {n e : Nat} (a : Nat) (he : e < n) :
    (a + gap n (a % n) e) % n = e := by
  have hn : 0 < n := by omega
  have h1 : a % n < n := Nat.mod_lt _ hn
  rw [Nat.add_mod, Nat.mod_eq_of_lt (gap_lt h1 he)]
  unfold gap
  split_ifs with h
  · rw [show a % n + (e - a % n) = e by omega, Nat.mod_eq_of_lt he]
  · rw [show a % n + (e + n - a % n) = e + n by omega, Nat.add_mod_right, Nat.mod_eq_of_lt he]

theorem length_pos_of_getElem? {t : List (Bucket K V)} {i : Nat} {b : Bucket K V}
    (h : t[i]? = some b) : i < t.length := by
  obtain ⟨h, _⟩ := List.getElem?_eq_some_iff.mp h
  exact h

theorem entries_nil : entries ([] : List (Bucket K V)) = [] := rfl

theorem entries_cons (b : Bucket K V) (t : List (Bucket K V)) :
    entries (b :: t) = slot b ++ entries t := by
  simp [entries]

theorem entries_append (t u : List (Bucket K V)) :
    entries (t ++ u) = entries t ++ entries u := by
  simp [entries]

theorem mem_entries {t : List (Bucket K V)} {x : K × V} :
    x ∈ entries t ↔ ∃ (i : Nat) (b : Bucket K V), t[i]? = some b ∧ b.empty = false ∧ b.item = x := by
  unfold entries
  rw [List.mem_flatMap]
  constructor
  · rintro ⟨b, hb, hx⟩
    obtain ⟨i, hi⟩ := List.mem_iff_getElem?.mp hb
    refine ⟨i, b, hi, ?_⟩
    unfold slot at hx
    cases hbe : b.empty <;> simp_all
  · rintro ⟨i, b, hi, hb, rfl⟩
    exact ⟨b, List.mem_iff_getElem?.mpr ⟨i, hi⟩, by simp [slot, hb]⟩

theorem entries_set {t : List (Bucket K V)} {i : Nat} {b : Bucket K V} (c : Bucket K V)
    (h : t[i]? = some b) :
    (slot c ++ entries t).Perm (slot b ++ entries (t.set i c)) := by
  induction t generalizing i with
  | nil => simp at h
  | cons a t ih =>
    cases i with
    | zero =>
      simp only [List.getElem?_cons_zero, Option.some.injEq] at h
      subst h
      simp only [List.set_cons_zero, entries_cons]
      rw [← List.append_assoc, ← List.append_assoc]
      exact List.Perm.append_right _ List.perm_append_comm
    | succ i =>
      simp only [List.getElem?_cons_succ] at h
      simp only [List.set_cons_succ, entries_cons]
      have := ih h
      calc (slot c ++ (slot a ++ entries t)).Perm (slot a ++ (slot c ++ entries t)) := by
            rw [← List.append_assoc, ← List.append_assoc]
            exact List.Perm.append_right _ List.perm_append_comm
        _ |>.Perm (slot a ++ (slot b ++ entries (t.set i c))) := List.Perm.append_left _ this
        _ |>.Perm (slot b ++ (slot a ++ entries (t.set i c))) := by
            rw [← List.append_assoc, ← List.append_assoc]
            exact List.Perm.append_right _ List.perm_append_comm

theorem entries_length_of_all_occupied {t : List (Bucket K V)}
    (h : ∀ b ∈ t, b.empty = false) : (entries t).length = t.length := by
  induction t with
  | nil => rfl
  | cons a t ih =>
    have ha := h a (List.mem_cons_self _ _)
    rw [entries_cons, List.length_append, ih (fun b hb => h b (List.mem_cons_of_mem _ hb))]
    simp [slot, ha]; omega

theorem entries_length_le (t : List (Bucket K V)) : (entries t).length ≤ t.length := by
  induction t with
  | nil => simp [entries]
  | cons a t ih =>
    rw [entries_cons, List.length_append]
    have : (slot a).length ≤ 1 := by unfold slot; split_ifs <;> simp
    simp only [List.length_cons]; omega

theorem hasEmpty_of_length_lt {t : List (Bucket K V)}
    (h : (entries t).length < t.length) : HasEmpty t := by
  by_contra hne
  have : ∀ b ∈ t, b.empty = false := by
    intro b hb
    by_contra hb'
    obtain ⟨i, hi⟩ := List.mem_iff_getElem?.mp hb
    exact hne ⟨i, b, hi, by simpa using hb'⟩
  have := entries_length_of_all_occupied this
  omega

end Basic
end RobinHood

namespace RobinHood
section Lookup
variable {K V : Type}

/-- Every bucket between the ideal slot of a stored key and the bucket holding it is
occupied, with a stored distance at least the number of steps taken to reach it. -/
theorem TableInv.chain {hasher : K → Nat} {t : List (Bucket K V)} (ht : TableInv hasher t)
    {p : Nat} {bp : Bucket K V} (hp : t[p]? = some bp) (hocc : bp.empty = false) :
    ∀ m, m ≤ bp.distance → ∃ b : Bucket K V,
      t[(hasher bp.item.1 + (bp.distance - m)) % t.length]? = some b ∧ b.empty = false ∧
        bp.distance - m ≤ b.distance := by
  have hn : 0 < t.length := by have := length_pos_of_getElem? hp; omega
  intro m
  induction m with
  | zero =>
    intro _
    refine ⟨bp, ?_, hocc, by simp⟩
    rw [Nat.sub_zero, ht.home p bp hp hocc]; exact hp
  | succ m ih =>
    intro hm
    obtain ⟨c, hc, hcocc, hcd⟩ := ih (by omega)
    have hlt : (hasher bp.item.1 + (bp.distance - (m + 1))) % t.length < t.length :=
      Nat.mod_lt _ hn
    have hw : wrap t.length ((hasher bp.item.1 + (bp.distance - (m + 1))) % t.length + 1)
        = (hasher bp.item.1 + (bp.distance - m)) % t.length := by
      rw [wrap_succ_mod _ hn]; congr 1; omega
    have hb := List.getElem?_eq_getElem hlt
    have := ht.order _ _ c hb (by rw [hw]; exact hc) hcocc (by omega)
    exact ⟨_, hb, this.1, by omega⟩

theorem TableInv.chain' {hasher : K → Nat} {t : List (Bucket K V)} (ht : TableInv hasher t)
    {p : Nat} {bp : Bucket K V} (hp : t[p]? = some bp) (hocc : bp.empty = false)
    {j : Nat} (hj : j ≤ bp.distance) : ∃ b : Bucket K V,
      t[(hasher bp.item.1 + j) % t.length]? = some b ∧ b.empty = false ∧ j ≤ b.distance := by
  have := ht.chain hp hocc (bp.distance - j) (by omega)
  rwa [show bp.distance - (bp.distance - j) = j by omega] at this

/-- With an empty bucket in the table, every stored distance is below `length - 1`. -/
theorem TableInv.distance_lt {hasher : K → Nat} {t : List (Bucket K V)}
    (ht : TableInv hasher t) (he : HasEmpty t)
    {p : Nat} {bp : Bucket K V} (hp : t[p]? = some bp) (hocc : bp.empty = false) :
    bp.distance + 1 < t.length := by
  obtain ⟨e, be, hbe, hempty⟩ := he
  have hel := length_pos_of_getElem? hbe
  have hn : 0 < t.length := by omega
  have hg := gap_lt (Nat.mod_lt (hasher bp.item.1) hn) hel
  by_contra hcon
  obtain ⟨b, hb, hbo, _⟩ := ht.chain' hp hocc
    (show gap t.length (hasher bp.item.1 % t.length) e ≤ bp.distance by omega)
  rw [mod_add_gap _ hel, hbe] at hb
  cases hb
  simp [hempty] at hbo

variable [DecidableEq K]

/-- A result of the lookup loop is `capacity_` or the offset of a bucket holding the
key. -/
theorem find_loop_sound {t : List (Bucket K V)} {c : Nat} {k : K} :
    ∀ (fuel i d r : Nat), find_loop t c k fuel i d = some r →
      r = c ∨ ∃ b : Bucket K V, t[r]? = some b ∧ b.empty = false ∧ b.item.1 = k := by
  intro fuel
  induction fuel with
  | zero => intro i d r h; simp [find_loop] at h
  | succ fuel ih =>
    intro i d r h
    unfold find_loop at h
    cases hb : t[i]? with
    | none => simp [hb] at h
    | some b =>
      simp only [hb] at h
      split_ifs at h with h1 h2
      · cases h; exact Or.inr ⟨b, hb, h1.1, h2⟩
      · exact ih _ _ _ h
      · cases h; exact Or.inl rfl

/-- The lookup loop stops at the latest at an empty bucket, `gap` steps ahead. -/
theorem find_loop_total {t : List (Bucket K V)} {c : Nat} {k : K}
    {e : Nat} {be : Bucket K V} (hbe : t[e]? = some be) (hempty : be.empty = true) :
    ∀ (fuel i d : Nat), i < t.length → gap t.length i e < fuel →
      ∃ r, find_loop t c k fuel i d = some r := by
  have hel := length_pos_of_getElem? hbe
  intro fuel
  induction fuel with
  | zero => intro i d _ h; omega
  | succ fuel ih =>
    intro i d hi hg
    unfold find_loop
    rw [List.getElem?_eq_getElem hi]
    simp only
    split_ifs with h1 h2
    · exact ⟨_, rfl⟩
    · have hne : i ≠ e := by
        rintro rfl
        rw [List.getElem?_eq_getElem hi] at hbe
        cases hbe
        simp [hempty] at h1
      have := gap_step hi hel hne
      exact ih _ _ (wrap_succ_lt hi) (by omega)
    · exact ⟨_, rfl⟩

/-- Started anywhere on the probe walk of a stored key, the lookup loop returns the
offset of the bucket holding it: by `TableInv.chain` it cannot stop earlier. -/
theorem find_loop_complete {hasher : K → Nat} {t : List (Bucket K V)}
    (ht : TableInv hasher t) {c : Nat}
    {p : Nat} {bp : Bucket K V} (hp : t[p]? = some bp) (hocc : bp.empty = false) :
    ∀ (fuel j : Nat), j ≤ bp.distance → bp.distance < fuel + j →
      find_loop t c bp.item.1 fuel ((hasher bp.item.1 + j) % t.length) j = some p := by
  have hn : 0 < t.length := by have := length_pos_of_getElem? hp; omega
  intro fuel
  induction fuel with
  | zero => intro j h1 h2; omega
  | succ fuel ih =>
    intro j hj hf
    obtain ⟨b, hb, hbo, hbd⟩ := ht.chain' hp hocc hj
    unfold find_loop
    rw [hb]
    simp only [hbo, hbd, and_self, if_true]
    split_ifs with h2
    · exact congrArg some (ht.distinct _ _ _ _ hb hp hbo hocc h2)
    · have hne : j ≠ bp.distance := by
        rintro rfl
        rw [ht.home p bp hp hocc, hp] at hb
        cases hb
        exact h2 rfl
      rw [wrap_succ_mod _ hn]
      exact ih (j + 1) (by omega) (by omega)

end Lookup
end RobinHood

namespace RobinHood
section Insertion
variable {K V : Type}

theorem set_length (t : List (Bucket K V)) (i : Nat) (item : K × V) (d : Nat) :
    (set t i item d).length = t.length := by simp [set]

theorem set_getElem?_self {t : List (Bucket K V)} {i : Nat} (item : K × V) (d : Nat)
    (h : i < t.length) : (set t i item d)[i]? = some ⟨item, d, false⟩ := by
  simp [set, h]

theorem set_getElem?_ne {t : List (Bucket K V)} {i j : Nat} (item : K × V) (d : Nat)
    (h : i ≠ j) : (set t i item d)[j]? = t[j]? := by
  simp [set, h]

theorem set_getElem?_cases {t : List (Bucket K V)} {i x : Nat} {item : K × V} {d : Nat}
    {b : Bucket K V} (h : (set t i item d)[x]? = some b) :
    (x = i ∧ b = ⟨item, d, false⟩) ∨ (x ≠ i ∧ t[x]? = some b) := by
  by_cases hx : x = i
  · subst hx
    have hl : x < t.length := by
      have := length_pos_of_getElem? h
      rwa [set_length] at this
    rw [set_getElem?_self _ _ hl] at h
    cases h
    exact Or.inl ⟨rfl, rfl⟩
  · rw [set_getElem?_ne _ _ (Ne.symm hx)] at h
    exact Or.inr ⟨hx, h⟩

/-- Storing an entry at offset `i` keeps the Robin Hood invariant when the entry is at
the right distance from its ideal slot, is ordered with respect to the bucket before
it, does not outrank-by-more-than-one the bucket after it, and its key is new. -/
theorem TableInv.set_bucket {hasher : K → Nat} {t : List (Bucket K V)}
    (ht : TableInv hasher t) {i d : Nat} {item : K × V} (hi : i < t.length)
    (hhome : (hasher item.1 + d) % t.length = i) (hprev : CarriedOrder t i d)
    (hnext : ∀ c : Bucket K V, t[wrap t.length (i + 1)]? = some c → c.empty = false →
      c.distance ≠ 0 → c.distance ≤ d + 1)
    (hnew : ∀ (x : Nat) (b : Bucket K V), x ≠ i → t[x]? = some b → b.empty = false →
      b.item.1 ≠ item.1) :
    TableInv hasher (set t i item d) := by
  constructor
  · intro x b hb hocc
    rw [set_length]
    rcases set_getElem?_cases hb with ⟨rfl, rfl⟩ | ⟨_, hb'⟩
    · exact hhome
    · exact ht.home x b hb' hocc
  · intro x b c hb hc hocc hcd
    rw [set_length] at hc
    rcases set_getElem?_cases hc with ⟨hw, rfl⟩ | ⟨hw, hc'⟩
    · rcases set_getElem?_cases hb with ⟨_, rfl⟩ | ⟨_, hb'⟩
      · exact ⟨rfl, by simp⟩
      · exact hprev hcd x b hw hb'
    · rcases set_getElem?_cases hb with ⟨rfl, rfl⟩ | ⟨_, hb'⟩
      · exact ⟨rfl, hnext c hc' hocc hcd⟩
      · exact ht.order x b c hb' hc' hocc hcd
  · intro x y b c hb hc hbo hco hkey
    rcases set_getElem?_cases hb with ⟨rfl, rfl⟩ | ⟨hx, hb'⟩
    · rcases set_getElem?_cases hc with ⟨rfl, rfl⟩ | ⟨hy, hc'⟩
      · rfl
      · exact absurd hkey.symm (hnew y c hy hc' hco)
    · rcases set_getElem?_cases hc with ⟨rfl, rfl⟩ | ⟨hy, hc'⟩
      · exact absurd hkey (hnew x b hx hb' hbo)
      · exact ht.distinct x y b c hb' hc' hbo hco hkey

/-- The probe loop of `insert` stops before the fuel runs out, at a bucket that is empty
or closer to its home than the carried entry, keeping the carried entry at the right
distance from its ideal slot `h % length`. -/
theorem probe_spec {t : List (Bucket K V)} {e : Nat} {be : Bucket K V}
    (hbe : t[e]? = some be) (hempty : be.empty = true) (h : Nat) :
    ∀ (fuel i d : Nat), i < t.length → gap t.length i e < fuel →
      (h + d) % t.length = i → CarriedOrder t i d →
      ∃ (i' d' : Nat) (b : Bucket K V), probe t fuel i d = some (i', d') ∧ t[i']? = some b ∧
        (b.empty = false → b.distance < d') ∧
        (h + d') % t.length = i' ∧ CarriedOrder t i' d' ∧
        gap t.length i' e ≤ gap t.length i e := by
  have hel := length_pos_of_getElem? hbe
  have hn : 0 < t.length := by omega
  intro fuel
  induction fuel with
  | zero => intro i d _ hg; omega
  | succ fuel ih =>
    intro i d hi hg hh hco
    unfold probe
    rw [List.getElem?_eq_getElem hi]
    simp only
    split_ifs with h1
    · have hne : i ≠ e := by
        rintro rfl
        rw [List.getElem?_eq_getElem hi] at hbe
        cases hbe
        simp [hempty] at h1
      have hgs := gap_step hi hel hne
      have hh' : (h + (d + 1)) % t.length = wrap t.length (i + 1) := by
        rw [← hh, wrap_succ_mod _ hn]; rfl
      have hco' : CarriedOrder t (wrap t.length (i + 1)) (d + 1) := by
        intro _ j b hj hb
        have := wrap_succ_inj hj
        subst this
        rw [List.getElem?_eq_getElem hi] at hb
        cases hb
        exact ⟨h1.1, by omega⟩
      obtain ⟨i', d', b, hp, hb, hlt, hh2, hco2, hg2⟩ :=
        ih _ _ (wrap_succ_lt hi) (by omega) hh' hco'
      exact ⟨i', d', b, hp, hb, hlt, hh2, hco2, by omega⟩
    · refine ⟨i, d, t[i], rfl, List.getElem?_eq_getElem hi, ?_, hh, hco, le_refl _⟩
      intro hocc
      by_contra hcon
      exact h1 ⟨hocc, by omega⟩

end Insertion
end RobinHood

namespace RobinHood
section InsertionWalk
variable {K V : Type}

/-- The insertion walk (probe, store, carry the displaced occupant on) returns: the
result satisfies the Robin Hood invariant and holds the old entries and the new one. -/
theorem insert_at_spec {hasher : K → Nat} {e : Nat} :
    ∀ (fuel : Nat) (t : List (Bucket K V)) (item : K × V) (d index : Nat),
      TableInv hasher t → (∃ be : Bucket K V, t[e]? = some be ∧ be.empty = true) →
      wrap t.length index < t.length → gap t.length (wrap t.length index) e < fuel →
      (hasher item.1 + d) % t.length = wrap t.length index →
      CarriedOrder t (wrap t.length index) d → Absent t item.1 →
      ∃ t' : List (Bucket K V), insert_at fuel t item d index = some t' ∧
        t'.length = t.length ∧ TableInv hasher t' ∧ (entries t').Perm (item :: entries t) := by
  intro fuel
  induction fuel with
  | zero => intro t item d index _ _ _ hg; omega
  | succ fuel ih =>
    intro t item d index ht ⟨be, hbe, hempty⟩ hi hg hh hco hab
    have hel := length_pos_of_getElem? hbe
    have hn : 0 < t.length := by omega
    obtain ⟨i', d', prev, hp, hprev, hlt, hh', hco', hg'⟩ :=
      probe_spec hbe hempty (hasher item.1) (t.length + 1) _ d hi
        (by have := gap_lt hi hel; omega) hh hco
    have hi' := length_pos_of_getElem? hprev
    have hnew : ∀ (x : Nat) (b : Bucket K V), x ≠ i' → t[x]? = some b → b.empty = false →
        b.item.1 ≠ item.1 := fun x b _ hb hbo => hab x b hb hbo
    have hperm := entries_set (⟨item, d', false⟩ : Bucket K V) hprev
    unfold insert_at
    simp only [hp, hprev]
    cases hpe : prev.empty with
    | true =>
      simp only [if_true]
      refine ⟨_, rfl, set_length _ _ _ _, ?_, ?_⟩
      · refine ht.set_bucket hi' hh' hco' ?_ hnew
        intro c hc hocc hcd
        have := (ht.order i' prev c hprev hc hocc hcd).1
        simp [hpe] at this
      · simpa [slot, hpe, set] using hperm.symm
    | false =>
      simp only [Bool.false_eq_true, if_false]
      have hpd := hlt hpe
      have ht1 : TableInv hasher (set t i' item d') := by
        refine ht.set_bucket hi' hh' hco' ?_ hnew
        intro c hc hocc hcd
        have := (ht.order i' prev c hprev hc hocc hcd).2
        omega
      have hne : i' ≠ e := by
        rintro rfl
        rw [hprev] at hbe
        cases hbe
        simp [hpe] at hempty
      have hgs := gap_step hi' hel hne
      have hlen := set_length t i' item d'
      obtain ⟨t', hins, hlen', ht', hperm'⟩ := ih (set t i' item d') prev.item
        (prev.distance + 1) (i' + 1) ht1
        ⟨be, by rw [set_getElem?_ne _ _ hne]; exact hbe, hempty⟩
        (by rw [hlen]; exact wrap_succ_lt hi')
        (by rw [hlen]; omega)
        (by rw [hlen, ← Nat.add_assoc, ← wrap_succ_mod _ hn, ht.home i' prev hprev hpe])
        (by
          rw [hlen]
          intro _ j b hj hb
          rw [hlen] at hj
          have := wrap_succ_inj hj
          subst this
          rw [set_getElem?_self _ _ hi'] at hb
          cases hb
          exact ⟨rfl, by simp only; omega⟩)
        (by
          intro x b hb hbo hkey
          rcases set_getElem?_cases hb with ⟨rfl, rfl⟩ | ⟨hx, hb'⟩
          · exact hab _ prev hprev hpe hkey.symm
          · exact hx (ht.distinct x i' b prev hb' hprev hbo hpe hkey))
      refine ⟨t', hins, by rw [hlen', hlen], ht', ?_⟩
      have h2 : (item :: entries t).Perm (prev.item :: entries (set t i' item d')) := by
        simpa [slot, hpe, set] using hperm
      exact hperm'.trans h2.symm

end InsertionWalk
end RobinHood

namespace RobinHood
section Iteration
variable {K V : Type}

theorem indexed_map_snd (base : Nat) (t : List (Bucket K V)) :
    (indexed base t).map Prod.snd = entries t := by
  induction t generalizing base with
  | nil => rfl
  | cons b t ih =>
    rw [indexed, entries_cons, List.map_append, ih]
    unfold slot
    split_ifs <;> rfl

theorem mem_indexed {base : Nat} {t : List (Bucket K V)} {i : Nat} {x : K × V} :
    (i, x) ∈ indexed base t ↔
      base ≤ i ∧ ∃ b : Bucket K V, t[i - base]? = some b ∧ b.empty = false ∧ b.item = x := by
  induction t generalizing base with
  | nil => simp [indexed]
  | cons a t ih =>
    rw [indexed, List.mem_append, ih]
    constructor
    · rintro (h | ⟨h1, b, hb, hbo, hbx⟩)
      · split_ifs at h with ha
        · simp at h
        · simp only [List.mem_singleton, Prod.mk.injEq] at h
          obtain ⟨rfl, rfl⟩ := h
          exact ⟨le_refl _, a, by simp, by simpa using ha, rfl⟩
      · refine ⟨by omega, b, ?_, hbo, hbx⟩
        rw [show i - base = (i - (base + 1)) + 1 by omega, List.getElem?_cons_succ]
        exact hb
    · rintro ⟨h1, b, hb, hbo, hbx⟩
      by_cases hi : i = base
      · subst hi
        simp only [Nat.sub_self, List.getElem?_cons_zero, Option.some.injEq] at hb
        subst hb
        left
        simp [hbo, hbx]
      · right
        refine ⟨by omega, b, ?_, hbo, hbx⟩
        rw [show i - base = (i - (base + 1)) + 1 by omega, List.getElem?_cons_succ] at hb
        exact hb

theorem indexed_sorted (base : Nat) (t : List (Bucket K V)) :
    ((indexed base t).map Prod.fst).Pairwise (· < ·) := by
  induction t generalizing base with
  | nil => simp [indexed]
  | cons a t ih =>
    rw [indexed, List.map_append, List.pairwise_append]
    refine ⟨by split_ifs <;> simp, ih _, ?_⟩
    intro i hi j hj
    split_ifs at hi with ha
    · simp at hi
    · simp only [List.map_cons, List.map_nil, List.mem_singleton] at hi
      subst hi
      obtain ⟨⟨j', x⟩, hjx, rfl⟩ := List.mem_map.mp hj
      have := (mem_indexed.mp hjx).1
      simp only; omega

theorem indexed_drop_skip {t : List (Bucket K V)} :
    ∀ (m i : Nat), i + m ≤ t.length →
      (∀ j, i ≤ j → j < i + m → ∀ b : Bucket K V, t[j]? = some b → b.empty = true) →
      indexed i (t.drop i) = indexed (i + m) (t.drop (i + m)) := by
  intro m
  induction m with
  | zero => intro i _ _; rfl
  | succ m ih =>
    intro i hle hall
    have hi : i < t.length := by omega
    have he := hall i (le_refl _) (by omega) _ (List.getElem?_eq_getElem hi)
    rw [List.drop_eq_getElem_cons hi, indexed, he]
    simp only [if_true, List.nil_append]
    rw [ih (i + 1) (by omega) (fun j h1 h2 => hall j (by omega) (by omega)),
      show i + 1 + m = i + (m + 1) by omega]

theorem first_used_loop_spec {t : List (Bucket K V)} :
    ∀ (fuel i : Nat), i ≤ t.length → t.length - i < fuel →
      ∃ i', first_used_loop t fuel i = some i' ∧ i ≤ i' ∧ i' ≤ t.length ∧
        (∀ j, i ≤ j → j < i' → ∀ b : Bucket K V, t[j]? = some b → b.empty = true) ∧
        (∀ b : Bucket K V, t[i']? = some b → b.empty = false) := by
  intro fuel
  induction fuel with
  | zero => intro i _ h; omega
  | succ fuel ih =>
    intro i hi hf
    unfold first_used_loop
    split_ifs with h1
    · refine ⟨i, rfl, le_refl _, hi, fun j h1 h2 => by omega, ?_⟩
      intro b hb
      have := length_pos_of_getElem? hb
      omega
    · have hlt : i < t.length := by omega
      rw [List.getElem?_eq_getElem hlt]
      simp only
      split_ifs with h2
      · obtain ⟨i', hr, h3, h4, h5, h6⟩ := ih (i + 1) (by omega) (by omega)
        refine ⟨i', hr, by omega, h4, ?_, h6⟩
        intro j hj1 hj2 b hb
        by_cases hji : j = i
        · subst hji
          rw [List.getElem?_eq_getElem hlt] at hb
          cases hb
          exact h2
        · exact h5 j (by omega) hj2 b hb
      · refine ⟨i, rfl, le_refl _, hi, fun j h1 h2 => by omega, ?_⟩
        intro b hb
        rw [List.getElem?_eq_getElem hlt] at hb
        cases hb
        simpa using h2

theorem hm_iter_next_spec {t : List (Bucket K V)} :
    ∀ (fuel i : Nat), i < t.length → t.length - i ≤ fuel →
      ∃ i', hm_iter_next t fuel i = some i' ∧ i + 1 ≤ i' ∧ i' ≤ t.length ∧
        (∀ j, i + 1 ≤ j → j < i' → ∀ b : Bucket K V, t[j]? = some b → b.empty = true) ∧
        (∀ b : Bucket K V, t[i']? = some b → b.empty = false) := by
  intro fuel
  induction fuel with
  | zero => intro i _ h; omega
  | succ fuel ih =>
    intro i hi hf
    unfold hm_iter_next
    rw [if_neg (by omega)]
    split_ifs with h1
    · refine ⟨i + 1, rfl, le_refl _, by omega, fun j h1 h2 => by omega, ?_⟩
      intro b hb
      have := length_pos_of_getElem? hb
      omega
    · have hlt : i + 1 < t.length := by omega
      rw [List.getElem?_eq_getElem hlt]
      simp only
      split_ifs with h2
      · obtain ⟨i', hr, h3, h4, h5, h6⟩ := ih (i + 1) hlt (by omega)
        refine ⟨i', hr, by omega, h4, ?_, h6⟩
        intro j hj1 hj2 b hb
        by_cases hji : j = i + 1
        · subst hji
          rw [List.getElem?_eq_getElem hlt] at hb
          cases hb
          exact h2
        · exact h5 j (by omega) hj2 b hb
      · refine ⟨i + 1, rfl, le_refl _, by omega, fun j h1 h2 => by omega, ?_⟩
        intro b hb
        rw [List.getElem?_eq_getElem hlt] at hb
        cases hb
        simpa using h2

/-- Started at an occupied bucket or at the end, the traversal loop yields the occupied
buckets from there on. -/
theorem iterate_loop_spec {t : List (Bucket K V)} :
    ∀ (fuel i : Nat), i ≤ t.length →
      (∀ b : Bucket K V, t[i]? = some b → b.empty = false) → t.length - i < fuel →
      iterate_loop t fuel i = some (indexed i (t.drop i)) := by
  intro fuel
  induction fuel with
  | zero => intro i _ _ h; omega
  | succ fuel ih =>
    intro i hi hocc hf
    unfold iterate_loop
    split_ifs with h1
    · rw [h1, List.drop_length]; rfl
    · have hlt : i < t.length := by omega
      obtain ⟨i', hr, h3, h4, h5, h6⟩ := hm_iter_next_spec (t.length + 1) i hlt (by omega)
      have hb := hocc _ (List.getElem?_eq_getElem hlt)
      rw [List.getElem?_eq_getElem hlt, hr]
      simp only
      rw [ih i' h4 h6 (by omega)]
      simp only [Option.map_some']
      rw [List.drop_eq_getElem_cons hlt, indexed, hb]
      simp only [Bool.false_eq_true, if_false, List.singleton_append]
      have := indexed_drop_skip (t := t) (i' - (i + 1)) (i + 1) (by omega)
        (fun j hj1 hj2 => h5 j hj1 (by omega))
      rw [this, show i + 1 + (i' - (i + 1)) = i' by omega]

/-- A traversal visits exactly the occupied buckets, in physical order. -/
theorem iterate_eq (s : HashMap K V) : iterate s = some (indexed 0 s.table_) := by
  unfold iterate first_used_
  obtain ⟨i', hr, _, h4, h5, h6⟩ :=
    first_used_loop_spec (t := s.table_) (s.table_.length + 1) 0 (by omega) (by omega)
  rw [hr]
  simp only
  rw [iterate_loop_spec _ i' h4 h6 (by omega)]
  have := indexed_drop_skip (t := s.table_) i' 0 (by omega) (fun j hj1 hj2 => h5 j hj1 (by omega))
  simp only [List.drop_zero, Nat.zero_add] at this
  rw [this]

end Iteration
end RobinHood

namespace RobinHood
section Schedule

theorem sched_lt {i c : Nat} (h : PRIME_CAPS_[i]? = some c) : i < 16 := by
  obtain ⟨h, _⟩ := List.getElem?_eq_some_iff.mp h
  simpa [PRIME_CAPS_] using h

theorem sched_bounds {i c : Nat} (h : PRIME_CAPS_[i]? = some c) : 67 ≤ c ∧ c ≤ 2295859 := by
  have hi := sched_lt h
  interval_cases i <;> simp [PRIME_CAPS_] at h <;> omega

theorem sched_next {i c c' : Nat} (h : PRIME_CAPS_[i]? = some c)
    (h' : PRIME_CAPS_[i + 1]? = some c') : 2 * c < c' ∧ c' < 3 * c := by
  have hi := sched_lt h'
  have hi' : i < 15 := by omega
  interval_cases i <;> simp [PRIME_CAPS_] at h h' <;> omega

theorem sched_mod {i c : Nat} (h : PRIME_CAPS_[i]? = some c) : c % 10 ≠ 0 := by
  have hi := sched_lt h
  interval_cases i <;> simp [PRIME_CAPS_] at h <;> omega

theorem sched_last {i c : Nat} (h : PRIME_CAPS_[i]? = some c) :
    (i + 1 = PRIME_CAPS_.length ↔ c = 2295859) := by
  have hi := sched_lt h
  interval_cases i <;> simp [PRIME_CAPS_] at h ⊢ <;> omega

theorem sched_succ {i : Nat} (h : i + 1 < PRIME_CAPS_.length) :
    ∃ c, PRIME_CAPS_[i + 1]? = some c :=
  ⟨_, List.getElem?_eq_getElem h⟩

theorem sched_pred {i c : Nat} (h : PRIME_CAPS_[i]? = some c) (h0 : 0 < i) :
    ∃ c', PRIME_CAPS_[i - 1]? = some c' ∧ 2 * c' < c ∧ c < 3 * c' := by
  have hi := sched_lt h
  have hlt : i - 1 < PRIME_CAPS_.length := by simp [PRIME_CAPS_]; omega
  refine ⟨_, List.getElem?_eq_getElem hlt, ?_⟩
  have := sched_next (List.getElem?_eq_getElem hlt) (by rwa [show i - 1 + 1 = i by omega])
  exact this

end Schedule

section StateLookup
variable {K V : Type}

theorem absent_iff {t : List (Bucket K V)} {k : K} :
    Absent t k ↔ ∀ v, (k, v) ∉ entries t := by
  constructor
  · intro h v hv
    obtain ⟨i, b, hb, hbo, hbi⟩ := mem_entries.mp hv
    exact h i b hb hbo (by rw [hbi])
  · intro h i b hb hbo hk
    exact h b.item.2 (mem_entries.mpr ⟨i, b, hb, hbo, by rw [← hk]⟩)

theorem absent_or_present (t : List (Bucket K V)) (k : K) :
    Absent t k ∨ ∃ (p : Nat) (b : Bucket K V), t[p]? = some b ∧ b.empty = false ∧ b.item.1 = k := by
  by_cases h : ∃ (p : Nat) (b : Bucket K V), t[p]? = some b ∧ b.empty = false ∧ b.item.1 = k
  · exact Or.inr h
  · left
    intro i b hb hbo hk
    exact h ⟨i, b, hb, hbo, hk⟩

theorem Core.hasEmpty {s : HashMap K V} (hs : Core s) (hlt : s.size_ < s.capacity_) :
    HasEmpty s.table_ :=
  hasEmpty_of_length_lt (by rw [← hs.size_eq, hs.length_eq]; exact hlt)

theorem TableInv.nodup_keys {hasher : K → Nat} {t : List (Bucket K V)}
    (ht : TableInv hasher t) : ((entries t).map Prod.fst).Nodup := by
  rw [← indexed_map_snd 0 t, List.map_map]
  have hnd : (indexed 0 t).Nodup := by
    have := (indexed_sorted 0 t).imp (fun h => Nat.ne_of_lt h)
    exact List.Nodup.of_map _ this
  refine List.Nodup.map_on ?_ hnd
  rintro ⟨i, x⟩ hx ⟨j, y⟩ hy hxy
  obtain ⟨_, b, hb, hbo, rfl⟩ := mem_indexed.mp hx
  obtain ⟨_, c, hc, hco, rfl⟩ := mem_indexed.mp hy
  simp only [Nat.sub_zero] at hb hc
  have := ht.distinct i j b c hb hc hbo hco hxy
  subst this
  rw [hb] at hc
  cases hc
  rfl

variable [DecidableEq K]

/-- `find_index` returns the offset of the bucket that holds the key. -/
theorem find_index_of_mem {s : HashMap K V} (hs : Core s) (hlt : s.size_ < s.capacity_)
    {p : Nat} {b : Bucket K V} (hp : s.table_[p]? = some b) (hocc : b.empty = false) :
    find_index s b.item.1 = some p := by
  have hd := hs.table.distance_lt (hs.hasEmpty hlt) hp hocc
  have := find_loop_complete hs.table (c := s.table_.length) hp hocc (s.table_.length + 1) 0
    (Nat.zero_le _) (by omega)
  rw [Nat.add_zero] at this
  unfold find_index mod_hash_
  rw [← hs.length_eq]
  exact this

/-- `find_index` returns `capacity_` for a key stored nowhere in the table. -/
theorem find_index_of_absent {s : HashMap K V} (hs : Core s) (hlt : s.size_ < s.capacity_)
    {k : K} (hab : Absent s.table_ k) : find_index s k = some s.capacity_ := by
  obtain ⟨e, be, hbe, hempty⟩ := hs.hasEmpty hlt
  have hel := length_pos_of_getElem? hbe
  have hn : 0 < s.table_.length := by omega
  have hi : mod_hash_ s k < s.table_.length := by
    unfold mod_hash_; rw [← hs.length_eq]; exact Nat.mod_lt _ hn
  obtain ⟨r, hr⟩ := find_loop_total (c := s.capacity_) (k := k) hbe hempty
    (s.table_.length + 1) (mod_hash_ s k) 0 hi (by have := gap_lt hi hel; omega)
  unfold find_index
  rw [hr]
  rcases find_loop_sound _ _ _ _ hr with h | ⟨b, hb, hbo, hk⟩
  · rw [h]
  · exact absurd hk (hab r b hb hbo)

end StateLookup
end RobinHood

namespace RobinHood
section StateInsert
variable {K V : Type}

theorem insert_at_top {s : HashMap K V} (hs : Core s) (hlt : s.size_ < s.capacity_)
    {item : K × V} (hab : Absent s.table_ item.1) :
    ∃ t : List (Bucket K V),
      insert_at s.table_.length s.table_ item 0 (mod_hash_ s item.1) = some t ∧
      t.length = s.table_.length ∧ TableInv s.hasher_ t ∧
      (entries t).Perm (item :: entries s.table_) := by
  obtain ⟨e, be, hbe, hempty⟩ := hs.hasEmpty hlt
  have hel := length_pos_of_getElem? hbe
  have hn : 0 < s.table_.length := by omega
  have hi : mod_hash_ s item.1 < s.table_.length := by
    unfold mod_hash_; rw [← hs.length_eq]; exact Nat.mod_lt _ hn
  have hw : wrap s.table_.length (mod_hash_ s item.1) = mod_hash_ s item.1 := wrap_of_lt hi
  refine insert_at_spec s.table_.length s.table_ item 0 (mod_hash_ s item.1) hs.table
    ⟨be, hbe, hempty⟩ (by rw [hw]; exact hi) (by rw [hw]; exact gap_lt hi hel)
    (by rw [hw, Nat.add_zero, hs.length_eq]; rfl) (fun h => absurd rfl h) hab

variable [DecidableEq K] [Inhabited K] [Inhabited V]

theorem insert_fuel_present (fuel : Nat) {s : HashMap K V} {item : K × V} {p : Nat}
    (hf : find_index s item.1 = some p) (hp : p ≠ s.table_.length) :
    insert_fuel fuel s item = some s := by
  unfold insert_fuel
  simp only [hf, hp, ne_eq, not_false_eq_true, if_true]

theorem insert_fuel_absent {s : HashMap K V} (hs : Core s) (hlt : s.size_ < s.capacity_)
    {item : K × V} (hab : Absent s.table_ item.1) :
    ∃ t : List (Bucket K V), t.length = s.table_.length ∧ TableInv s.hasher_ t ∧
      (entries t).Perm (item :: entries s.table_) ∧
      (10 * (s.size_ + 1) < 9 * s.capacity_ → ∀ fuel,
        insert_fuel fuel s item = some { s with table_ := t, size_ := s.size_ + 1 }) ∧
      (9 * s.capacity_ ≤ 10 * (s.size_ + 1) → insert_fuel 0 s item = none ∧ ∀ fuel,
        insert_fuel (fuel + 1) s item = rehash_ (insert_fuel fuel)
          { s with table_ := t, size_ := s.size_ + 1, cap_index_ := s.cap_index_ + 1 }) := by
  obtain ⟨t, hins, hlen, ht, hperm⟩ := insert_at_top hs hlt hab
  have hf := find_index_of_absent hs hlt hab
  rw [← hs.length_eq] at hf
  refine ⟨t, hlen, ht, hperm, ?_, ?_⟩
  · intro hno fuel
    unfold insert_fuel
    simp only [hf, ne_eq, not_true_eq_false, if_false, hins, overload_]
    rw [if_neg (by simp; omega)]
  · intro hov
    constructor
    · unfold insert_fuel
      simp only [hf, ne_eq, not_true_eq_false, if_false, hins, overload_]
      rw [if_pos (by simp; omega)]
    · intro fuel
      rw [insert_fuel]
      simp only [hf, ne_eq, not_true_eq_false, if_false, hins, overload_]
      rw [if_pos (by simp; omega)]

end StateInsert
end RobinHood

namespace RobinHood
section StateCreate
variable {K V : Type}

theorem entries_replicate_empty (n : Nat) (b : Bucket K V) (hb : b.empty = true) :
    entries (List.replicate n b) = [] := by
  induction n with
  | zero => rfl
  | succ n ih => rw [List.replicate_succ, entries_cons, ih]; simp [slot, hb]

theorem tableInv_replicate_empty (hasher : K → Nat) (n : Nat) (b : Bucket K V)
    (hb : b.empty = true) : TableInv hasher (List.replicate n b) := by
  have key : ∀ (i : Nat) (c : Bucket K V), (List.replicate n b)[i]? = some c → c.empty = false →
      False := by
    intro i c hc hco
    rw [List.getElem?_replicate] at hc
    split_ifs at hc
    cases hc
    simp [hb] at hco
  constructor
  · intro i c hc hco; exact (key i c hc hco).elim
  · intro i c c' _ hc' hco _; exact (key _ c' hc' hco).elim
  · intro i j c c' hc _ hco _ _; exact (key i c hc hco).elim

variable [Inhabited K] [Inhabited V]

theorem initialize_spec {s : HashMap K V} {c : Nat} (h : PRIME_CAPS_[s.cap_index_]? = some c) :
    ∃ s0 : HashMap K V, initialize_ s = some s0 ∧ Core s0 ∧ s0.size_ = 0 ∧
      entries s0.table_ = [] ∧ s0.hasher_ = s.hasher_ ∧ s0.capacity_ = c ∧
      s0.cap_index_ = s.cap_index_ := by
  unfold initialize_
  rw [h]
  refine ⟨_, rfl, ⟨by simp, ?_, ?_⟩, rfl, ?_, rfl, rfl, rfl⟩
  · simp [entries_replicate_empty _ (default : Bucket K V) rfl]
  · exact tableInv_replicate_empty _ _ _ rfl
  · exact entries_replicate_empty _ _ rfl

theorem initialize_none {s : HashMap K V} (h : PRIME_CAPS_.length ≤ s.cap_index_) :
    initialize_ s = none := by
  unfold initialize_
  rw [List.getElem?_eq_none h]

theorem rehash_none (ins : HashMap K V → K × V → Option (HashMap K V)) {s : HashMap K V}
    (h : PRIME_CAPS_.length ≤ s.cap_index_) : rehash_ ins s = none := by
  unfold rehash_
  rw [iterate_eq]
  simp only
  unfold create_
  rw [initialize_none h]

variable [DecidableEq K]

theorem insert_fuel_no_growth (fuel : Nat) {s : HashMap K V} (hs : Core s) {item : K × V}
    (hab : Absent s.table_ item.1) (hno : 10 * (s.size_ + 1) < 9 * s.capacity_) :
    ∃ s' : HashMap K V, insert_fuel fuel s item = some s' ∧ Core s' ∧
      s'.size_ = s.size_ + 1 ∧ (entries s'.table_).Perm (item :: entries s.table_) ∧
      s'.hasher_ = s.hasher_ ∧ s'.capacity_ = s.capacity_ ∧ s'.cap_index_ = s.cap_index_ := by
  obtain ⟨t, hlen, ht, hperm, h1, _⟩ := insert_fuel_absent hs (by omega) hab
  refine ⟨_, h1 hno fuel, ⟨?_, ?_, ht⟩, rfl, hperm, rfl, rfl, rfl⟩
  · simp only; rw [hlen, hs.length_eq]
  · simp only; rw [hperm.length_eq, List.length_cons, hs.size_eq]

theorem foldlM_insert_no_growth (fuel : Nat) :
    ∀ (items : List (K × V)) (s : HashMap K V), Core s → (items.map Prod.fst).Nodup →
      (∀ x ∈ items, Absent s.table_ x.1) → 10 * (s.size_ + items.length) < 9 * s.capacity_ →
      ∃ s' : HashMap K V, items.foldlM (insert_fuel fuel) s = some s' ∧ Core s' ∧
        s'.size_ = s.size_ + items.length ∧
        (entries s'.table_).Perm (items ++ entries s.table_) ∧
        s'.hasher_ = s.hasher_ ∧ s'.capacity_ = s.capacity_ ∧ s'.cap_index_ = s.cap_index_ := by
  intro items
  induction items with
  | nil => intro s hs _ _ _; exact ⟨s, rfl, hs, rfl, List.Perm.refl _, rfl, rfl, rfl⟩
  | cons x xs ih =>
    intro s hs hnd hab hload
    rw [List.map_cons, List.nodup_cons] at hnd
    rw [List.length_cons] at hload
    obtain ⟨s1, h1, hs1, hsz1, hp1, hh1, hc1, hi1⟩ :=
      insert_fuel_no_growth fuel hs (hab x (List.mem_cons_self _ _)) (by omega)
    have hab1 : ∀ y ∈ xs, Absent s1.table_ y.1 := by
      intro y hy
      rw [absent_iff]
      intro v hv
      rcases List.mem_cons.mp (hp1.mem_iff.mp hv) with h | h
      · have hy' : y.1 ∈ xs.map Prod.fst := List.mem_map_of_mem Prod.fst hy
        rw [← h] at hnd
        exact hnd.1 hy'
      · exact absent_iff.mp (hab y (List.mem_cons_of_mem _ hy)) v h
    obtain ⟨s', h2, hs2, hsz2, hp2, hh2, hc2, hi2⟩ := ih s1 hs1 hnd.2 hab1 (by rw [hsz1, hc1]; omega)
    refine ⟨s', ?_, hs2, by rw [hsz2, hsz1, List.length_cons]; omega, ?_, by rw [hh2, hh1],
      by rw [hc2, hc1], by rw [hi2, hi1]⟩
    · rw [List.foldlM_cons, h1]; exact h2
    · refine hp2.trans ?_
      refine (List.Perm.append_left xs hp1).trans ?_
      rw [List.cons_append]
      exact List.perm_middle

/-- `create_` from pairwise different keys that stay below the growth threshold of the
capacity at `cap_index_`: no nested growth happens. -/
theorem create_no_growth (fuel : Nat) {s : HashMap K V} {c : Nat}
    (h : PRIME_CAPS_[s.cap_index_]? = some c) {items : List (K × V)}
    (hnd : (items.map Prod.fst).Nodup) (hload : 10 * items.length < 9 * c) :
    ∃ s' : HashMap K V, create_ (insert_fuel fuel) s items = some s' ∧ Core s' ∧
      s'.size_ = items.length ∧ (entries s'.table_).Perm items ∧
      s'.hasher_ = s.hasher_ ∧ s'.capacity_ = c ∧ s'.cap_index_ = s.cap_index_ := by
  obtain ⟨s0, h0, hs0, hsz0, he0, hh0, hc0, hi0⟩ := initialize_spec h
  have hab : ∀ x ∈ items, Absent s0.table_ x.1 := by
    intro x _
    rw [absent_iff, he0]
    intro v hv
    simp at hv
  obtain ⟨s', h1, hs1, hsz1, hp1, hh1, hc1, hi1⟩ :=
    foldlM_insert_no_growth fuel items s0 hs0 hnd hab (by rw [hsz0, hc0]; omega)
  refine ⟨s', ?_, hs1, by rw [hsz1, hsz0]; omega, by simpa [he0] using hp1, by rw [hh1, hh0],
    by rw [hc1, hc0], by rw [hi1, hi0]⟩
  unfold create_
  rw [h0]
  exact h1

/-- `rehash_` at a `cap_index_` whose capacity holds the entries below the growth
threshold rebuilds the table with the same entries. -/
theorem rehash_no_growth (fuel : Nat) {s : HashMap K V} {c : Nat}
    (ht : TableInv s.hasher_ s.table_) (h : PRIME_CAPS_[s.cap_index_]? = some c)
    (hload : 10 * (entries s.table_).length < 9 * c) :
    ∃ s' : HashMap K V, rehash_ (insert_fuel fuel) s = some s' ∧ Core s' ∧
      s'.size_ = (entries s.table_).length ∧ (entries s'.table_).Perm (entries s.table_) ∧
      s'.hasher_ = s.hasher_ ∧ s'.capacity_ = c ∧ s'.cap_index_ = s.cap_index_ := by
  unfold rehash_
  rw [iterate_eq]
  simp only [indexed_map_snd]
  exact create_no_growth fuel h ht.nodup_keys hload

end StateCreate
end RobinHood

namespace RobinHood
section InvInsert
variable {K V : Type}

theorem Inv.upper_lt {s : HashMap K V} (hs : Inv s) : 10 * s.size_ < 9 * s.capacity_ := by
  have h1 := hs.upper
  have h2 := sched_mod hs.capacity_eq
  omega

theorem Inv.size_lt {s : HashMap K V} (hs : Inv s) : s.size_ < s.capacity_ := by
  have := hs.upper_lt
  omega

theorem Inv.capacity_bounds {s : HashMap K V} (hs : Inv s) :
    67 ≤ s.capacity_ ∧ s.capacity_ ≤ 2295859 := sched_bounds hs.capacity_eq

theorem Inv.cap_index_lt {s : HashMap K V} (hs : Inv s) : s.cap_index_ < PRIME_CAPS_.length :=
  sched_lt hs.capacity_eq

theorem exhausts_iff {s : HashMap K V} (hs : Inv s) : Exhausts s ↔ s.size_ = 2066273 := by
  have h1 := hs.upper_lt
  have h2 := hs.capacity_bounds
  have h3 := sched_last hs.capacity_eq
  unfold Exhausts
  constructor
  · rintro ⟨h4, h5⟩
    have := h3.mp h4
    omega
  · intro h
    have : s.capacity_ = 2295859 := by omega
    exact ⟨h3.mpr this, by omega⟩

variable [DecidableEq K] [Inhabited K] [Inhabited V]

/-- Inserting a key that is already stored returns the state unchanged. -/
theorem insert_fuel_of_mem (fuel : Nat) {s : HashMap K V} (hs : Core s)
    (hlt : s.size_ < s.capacity_) {p : Nat} {b : Bucket K V} (hp : s.table_[p]? = some b)
    (hocc : b.empty = false) (v : V) : insert_fuel fuel s (b.item.1, v) = some s :=
  insert_fuel_present fuel (find_index_of_mem hs hlt hp hocc)
    (Nat.ne_of_lt (length_pos_of_getElem? hp))

/-- Inserting a new key, when the schedule is not exhausted, stores the entry, adds one
to `size_` and re-establishes the invariants; `cap_index_` moves by one exactly when
the new size reaches the growth threshold. -/
theorem insert_fuel_new (fuel : Nat) {s : HashMap K V} (hs : Inv s) {item : K × V}
    (hab : Absent s.table_ item.1) (hne : ¬ Exhausts s) :
    ∃ s' : HashMap K V, insert_fuel (fuel + 1) s item = some s' ∧ Inv s' ∧
      s'.size_ = s.size_ + 1 ∧ (entries s'.table_).Perm (item :: entries s.table_) ∧
      s'.hasher_ = s.hasher_ ∧
      s'.cap_index_ = (if 9 * s.capacity_ ≤ 10 * (s.size_ + 1) then s.cap_index_ + 1
        else s.cap_index_) := by
  obtain ⟨t, hlen, ht, hperm, h1, h2⟩ := insert_fuel_absent hs.core hs.size_lt hab
  have hsz : (entries t).length = s.size_ + 1 := by
    rw [hperm.length_eq, List.length_cons, hs.core.size_eq]
  by_cases hov : 9 * s.capacity_ ≤ 10 * (s.size_ + 1)
  · have hci := hs.cap_index_lt
    have hci' : s.cap_index_ + 1 < PRIME_CAPS_.length := by
      rcases Nat.lt_or_ge (s.cap_index_ + 1) PRIME_CAPS_.length with h | h
      · exact h
      · exact absurd ⟨by omega, hov⟩ hne
    obtain ⟨c', hc'⟩ := sched_succ hci'
    have hnext := sched_next hs.capacity_eq hc'
    have hup := hs.upper
    obtain ⟨s', hr, hcore, hsz', hperm', hh, hcap, hidx⟩ :=
      rehash_no_growth fuel
        (s := { s with table_ := t, size_ := s.size_ + 1, cap_index_ := s.cap_index_ + 1 })
        ht hc' (by simp only; omega)
    simp only at hsz' hperm' hh hcap hidx
    refine ⟨s', by rw [(h2 hov).2 fuel]; exact hr, ⟨hcore, by rw [hidx, hcap]; exact hc',
      by omega, Or.inr (by omega)⟩, by omega, hperm'.trans hperm, hh, by rw [hidx, if_pos hov]⟩
  · have hno : 10 * (s.size_ + 1) < 9 * s.capacity_ := by omega
    refine ⟨_, h1 hno _, ⟨⟨by simp only; rw [hlen, hs.core.length_eq], by simp only; omega, ht⟩,
      hs.capacity_eq, by simp only; omega, ?_⟩, rfl, hperm, rfl, by simp only; rw [if_neg hov]⟩
    rcases hs.lower with h | h
    · exact Or.inl h
    · exact Or.inr (by simp only; omega)

/-- At the last capacity of the schedule an insertion that reaches the growth threshold
has no result: `cap_index_` becomes 16 and `PRIME_CAPS_[16]` does not exist. -/
theorem insert_fuel_exhausts (fuel : Nat) {s : HashMap K V} (hs : Inv s) {item : K × V}
    (hab : Absent s.table_ item.1) (hex : Exhausts s) : insert_fuel fuel s item = none := by
  obtain ⟨t, _, _, _, _, h2⟩ := insert_fuel_absent hs.core hs.size_lt hab
  cases fuel with
  | zero => exact (h2 hex.2).1
  | succ fuel =>
    rw [(h2 hex.2).2 fuel]
    exact rehash_none _ (by simp only; rw [hex.1])

end InvInsert
end RobinHood

namespace RobinHood
section Erasure
variable {K V : Type}

theorem shift_getElem?_cases {t : List (Bucket K V)} {hole iterv x : Nat} {b c : Bucket K V}
    (h : ((set t hole b.item (b.distance - 1)).set iterv { b with empty := true })[x]? = some c) :
    (x = iterv ∧ c = { b with empty := true }) ∨
    (x ≠ iterv ∧ x = hole ∧ c = ⟨b.item, b.distance - 1, false⟩) ∨
    (x ≠ iterv ∧ x ≠ hole ∧ t[x]? = some c) := by
  by_cases hx : x = iterv
  · subst hx
    have hl : x < ((set t hole b.item (b.distance - 1))).length := by
      have := length_pos_of_getElem? h
      rwa [List.length_set] at this
    rw [List.getElem?_set_self hl] at h
    cases h
    exact Or.inl ⟨rfl, rfl⟩
  · rw [List.getElem?_set_ne (Ne.symm hx)] at h
    rcases set_getElem?_cases h with ⟨h1, h2⟩ | ⟨h1, h2⟩
    · exact Or.inr (Or.inl ⟨hx, h1, h2⟩)
    · exact Or.inr (Or.inr ⟨hx, h1, h2⟩)

theorem home_pred {n h d i : Nat} (hi : i < n) (hd : 0 < d)
    (h1 : (h + d) % n = wrap n (i + 1)) : (h + (d - 1)) % n = i := by
  have hn : 0 < n := by omega
  have h2 := wrap_succ_mod (h + (d - 1)) hn
  rw [show h + (d - 1) + 1 = h + d by omega, h1] at h2
  exact wrap_succ_inj h2

/-- The backward-shift loop returns: it re-establishes the Robin Hood invariant and
keeps the entries of the table. -/
theorem shift_loop_spec {hasher : K → Nat} {e : Nat} :
    ∀ (fuel : Nat) (t : List (Bucket K V)) (hole : Nat), HoleInv hasher t hole → e ≠ hole →
      (∃ be : Bucket K V, t[e]? = some be ∧ be.empty = true) →
      gap t.length (wrap t.length (hole + 1)) e < fuel →
      ∃ t' : List (Bucket K V),
        shift_loop fuel t hole (wrap t.length (hole + 1)) = some t' ∧
        t'.length = t.length ∧ TableInv hasher t' ∧ (entries t').Perm (entries t) := by
  intro fuel
  induction fuel with
  | zero => intro t hole _ _ _ hg; omega
  | succ fuel ih =>
    intro t hole ht hne ⟨be, hbe, hempty⟩ hg
    obtain ⟨bh, hbh, hvac⟩ := ht.vacant
    have hh := length_pos_of_getElem? hbh
    have hel := length_pos_of_getElem? hbe
    have hit : wrap t.length (hole + 1) < t.length := wrap_succ_lt hh
    have hb := List.getElem?_eq_getElem hit
    unfold shift_loop
    rw [hb]
    simp only
    split_ifs with h1
    · -- the loop body runs
      obtain ⟨hbo, hbd⟩ := h1
      generalize hbdef : t[wrap t.length (hole + 1)] = b at hb hbo hbd
      generalize hidef : wrap t.length (hole + 1) = iterv at hb hit hg
      have hih : iterv ≠ hole := by
        rintro rfl
        rw [hbh] at hb; cases hb
        simp [hvac] at hbo
      have hie : iterv ≠ e := by
        rintro rfl
        rw [hbe] at hb; cases hb
        simp [hempty] at hbo
      have hlen : ((set t hole b.item (b.distance - 1)).set iterv
          { b with empty := true }).length = t.length := by
        rw [List.length_set, set_length]
      have hinv : HoleInv hasher
          ((set t hole b.item (b.distance - 1)).set iterv { b with empty := true }) iterv := by
        constructor
        · intro x c hc hco
          rw [hlen]
          rcases shift_getElem?_cases hc with ⟨_, rfl⟩ | ⟨_, rfl, rfl⟩ | ⟨_, _, hc'⟩
          · simp at hco
          · exact home_pred hh hbd (by rw [hidef]; exact ht.home iterv b hb hbo)
          · exact ht.home x c hc' hco
        · intro x b0 c hx hb0 hc hco hcd
          rw [hlen] at hc
          rcases shift_getElem?_cases hc with ⟨_, rfl⟩ | ⟨_, hw, rfl⟩ | ⟨hw1, hw2, hc'⟩
          · simp at hco
          · rcases shift_getElem?_cases hb0 with ⟨h1, _⟩ | ⟨_, rfl, _⟩ | ⟨_, _, hb0'⟩
            · exact absurd h1 hx
            · exact absurd (hw.symm.trans hidef) (Ne.symm hih)
            · have := ht.skip x b0 b hw hb0' (by rw [hidef]; exact hb) hbo
                (by simp only at hcd; omega)
              exact ⟨this.1, by simp only; omega⟩
          · rcases shift_getElem?_cases hb0 with ⟨h1, _⟩ | ⟨_, rfl, _⟩ | ⟨_, h2, hb0'⟩
            · exact absurd h1 hx
            · exact absurd hidef hw1
            · exact ht.order x b0 c h2 hb0' hc' hco hcd
        · intro x b0 c hx hb0 hc hco hcd
          rw [hlen] at hx hc
          have hxh : x = hole := wrap_succ_inj (hx.trans hidef.symm)
          subst hxh
          rcases shift_getElem?_cases hb0 with ⟨h1, _⟩ | ⟨_, _, rfl⟩ | ⟨_, h2, _⟩
          · exact absurd h1.symm hih
          · refine ⟨rfl, ?_⟩
            rcases shift_getElem?_cases hc with ⟨_, rfl⟩ | ⟨_, _, rfl⟩ | ⟨_, _, hc'⟩
            · simp at hco
            · simp only; omega
            · have := ht.order iterv b c hih hb hc' hco (by omega)
              simp only; omega
          · exact absurd rfl h2
        · intro x y b1 b2 h1 h2 ho1 ho2 hkey
          rcases shift_getElem?_cases h1 with ⟨_, rfl⟩ | ⟨_, rfl, rfl⟩ | ⟨hx1, hx2, h1'⟩
          · simp at ho1
          · rcases shift_getElem?_cases h2 with ⟨_, rfl⟩ | ⟨_, rfl, rfl⟩ | ⟨hy1, hy2, h2'⟩
            · simp at ho2
            · rfl
            · exact absurd (ht.distinct y iterv b2 b h2' hb ho2 hbo hkey.symm) hy1
          · rcases shift_getElem?_cases h2 with ⟨_, rfl⟩ | ⟨_, rfl, rfl⟩ | ⟨hy1, hy2, h2'⟩
            · simp at ho2
            · exact absurd (ht.distinct x iterv b1 b h1' hb ho1 hbo hkey) hx1
            · exact ht.distinct x y b1 b2 h1' h2' ho1 ho2 hkey
        · exact ⟨{ b with empty := true }, by
            rw [List.getElem?_set_self (by rw [set_length]; exact hit)], rfl⟩
      have hgs := gap_step hit hel hie
      obtain ⟨t', hr, hl', ht', hp'⟩ := ih _ iterv hinv (Ne.symm hie)
        ⟨be, by rw [List.getElem?_set_ne hie, set_getElem?_ne _ _ (Ne.symm hne)]; exact hbe,
          hempty⟩ (by rw [hlen]; omega)
      rw [hlen] at hr
      refine ⟨t', hr, by rw [hl', hlen], ht', hp'.trans ?_⟩
      have p1 := entries_set (⟨b.item, b.distance - 1, false⟩ : Bucket K V) hbh
      have p2 := entries_set ({ b with empty := true } : Bucket K V)
        (show (set t hole b.item (b.distance - 1))[iterv]? = some b by
          rw [set_getElem?_ne _ _ (Ne.symm hih)]; exact hb)
      simp only [slot, hvac, hbo, if_true, Bool.false_eq_true, if_false, List.nil_append,
        List.singleton_append] at p1 p2
      exact (List.Perm.cons_inv (p1.trans p2)).symm
    · -- the loop stops
      refine ⟨t, rfl, rfl, ⟨ht.home, ?_, ht.distinct⟩, List.Perm.refl _⟩
      intro x b0 c hb0 hc hco hcd
      by_cases hx : x = hole
      · subst hx
        rw [hb] at hc; cases hc
        exact absurd ⟨hco, Nat.pos_of_ne_zero hcd⟩ h1
      · exact ht.order x b0 c hx hb0 hc hco hcd

end Erasure
end RobinHood

namespace RobinHood
section Vacate
variable {K V : Type}

theorem list_set_getElem?_cases {t : List (Bucket K V)} {p x : Nat} {c d : Bucket K V}
    (h : (t.set p c)[x]? = some d) : (x = p ∧ d = c) ∨ (x ≠ p ∧ t[x]? = some d) := by
  by_cases hx : x = p
  · subst hx
    have hl : x < t.length := by
      have := length_pos_of_getElem? h
      rwa [List.length_set] at this
    rw [List.getElem?_set_self hl] at h
    cases h
    exact Or.inl ⟨rfl, rfl⟩
  · rw [List.getElem?_set_ne (Ne.symm hx)] at h
    exact Or.inr ⟨hx, h⟩

/-- Vacating an occupied bucket of a table satisfying the Robin Hood invariant
establishes the invariant of the backward-shift loop. -/
theorem TableInv.vacate {hasher : K → Nat} {t : List (Bucket K V)} (ht : TableInv hasher t)
    {p : Nat} {b : Bucket K V} (hp : t[p]? = some b) (hocc : b.empty = false) :
    HoleInv hasher (t.set p { b with empty := true }) p := by
  have hpl := length_pos_of_getElem? hp
  constructor
  · intro x c hc hco
    rw [List.length_set]
    rcases list_set_getElem?_cases hc with ⟨_, rfl⟩ | ⟨_, hc'⟩
    · simp at hco
    · exact ht.home x c hc' hco
  · intro x b0 c hx hb0 hc hco hcd
    rw [List.length_set] at hc
    rcases list_set_getElem?_cases hc with ⟨_, rfl⟩ | ⟨_, hc'⟩
    · simp at hco
    · rcases list_set_getElem?_cases hb0 with ⟨h1, _⟩ | ⟨_, hb0'⟩
      · exact absurd h1 hx
      · exact ht.order x b0 c hb0' hc' hco hcd
  · intro x b0 c hx hb0 hc hco hcd
    rw [List.length_set] at hx hc
    rcases list_set_getElem?_cases hc with ⟨_, rfl⟩ | ⟨hw, hc'⟩
    · simp at hco
    · have h1 := ht.order p b c hp hc' hco (by omega)
      rcases list_set_getElem?_cases hb0 with ⟨hxp, _⟩ | ⟨_, hb0'⟩
      · rw [hxp] at hx
        exact absurd hx hw
      · have h2 := ht.order x b0 b hb0' (by rw [hx]; exact hp) hocc (by omega)
        exact ⟨h2.1, by omega⟩
  · intro x y b1 b2 h1 h2 ho1 ho2 hkey
    rcases list_set_getElem?_cases h1 with ⟨_, rfl⟩ | ⟨_, h1'⟩
    · simp at ho1
    · rcases list_set_getElem?_cases h2 with ⟨_, rfl⟩ | ⟨_, h2'⟩
      · simp at ho2
      · exact ht.distinct x y b1 b2 h1' h2' ho1 ho2 hkey
  · exact ⟨_, List.getElem?_set_self hpl, rfl⟩

end Vacate
end RobinHood

namespace RobinHood
section StateErase
variable {K V : Type}

theorem sched_small {i c : Nat} (h : PRIME_CAPS_[i]? = some c) (hc : c < 100) : i = 0 := by
  have hi := sched_lt h
  interval_cases i <;> simp [PRIME_CAPS_] at h <;> omega

/-- The table part of `erase` for a stored key: vacate the bucket and shift back. -/
theorem erase_table {hasher : K → Nat} {t : List (Bucket K V)} (ht : TableInv hasher t)
    (he : HasEmpty t) {p : Nat} {b : Bucket K V} (hp : t[p]? = some b) (hocc : b.empty = false) :
    ∃ t' : List (Bucket K V),
      shift_loop t.length (t.set p { b with empty := true }) p (wrap t.length (p + 1)) = some t' ∧
      t'.length = t.length ∧ TableInv hasher t' ∧ (entries t).Perm (b.item :: entries t') := by
  obtain ⟨e, be, hbe, hempty⟩ := he
  have hel := length_pos_of_getElem? hbe
  have hpl := length_pos_of_getElem? hp
  have hne : e ≠ p := by
    rintro rfl
    rw [hbe] at hp; cases hp
    simp [hempty] at hocc
  have hlen : (t.set p { b with empty := true }).length = t.length := List.length_set _ _ _
  obtain ⟨t', hr, hl', ht', hp'⟩ := shift_loop_spec (e := e) t.length _ p (ht.vacate hp hocc) hne
    ⟨be, by rw [List.getElem?_set_ne (Ne.symm hne)]; exact hbe, hempty⟩
    (by rw [hlen]; exact gap_lt (wrap_succ_lt hpl) hel)
  rw [hlen] at hr
  refine ⟨t', hr, by rw [hl', hlen], ht', ?_⟩
  have p1 := entries_set ({ b with empty := true } : Bucket K V) hp
  simp only [slot, hocc, if_true, Bool.false_eq_true, if_false, List.nil_append,
    List.singleton_append] at p1
  exact p1.trans (List.Perm.cons _ hp'.symm)

variable [DecidableEq K] [Inhabited K] [Inhabited V]

/-- Erasing a key that is stored nowhere returns the state unchanged. -/
theorem erase_of_absent {s : HashMap K V} (hs : Core s) (hlt : s.size_ < s.capacity_) {k : K}
    (hab : Absent s.table_ k) : erase s k = some s := by
  unfold erase
  rw [find_index_of_absent hs hlt hab, hs.length_eq]
  simp

/-- Erasing a stored key removes its entry, subtracts one from `size_` and
re-establishes the invariants; `cap_index_` drops by one exactly when the new size
falls below the shrink threshold. -/
theorem erase_of_mem {s : HashMap K V} (hs : Inv s) {p : Nat} {b : Bucket K V}
    (hp : s.table_[p]? = some b) (hocc : b.empty = false) :
    ∃ s' : HashMap K V, erase s b.item.1 = some s' ∧ Inv s' ∧ s'.size_ + 1 = s.size_ ∧
      (entries s.table_).Perm (b.item :: entries s'.table_) ∧ s'.hasher_ = s.hasher_ ∧
      s'.cap_index_ = (if 0 < s.cap_index_ ∧ 100 * (s.size_ - 1) < s.capacity_
        then s.cap_index_ - 1 else s.cap_index_) := by
  have hpl := length_pos_of_getElem? hp
  obtain ⟨t', hr, hl', ht', hperm⟩ := erase_table hs.core.table (hs.core.hasEmpty hs.size_lt) hp hocc
  have hsz : s.size_ = (entries t').length + 1 := by
    rw [hs.core.size_eq, hperm.length_eq, List.length_cons]
  have hup := hs.upper_lt
  unfold erase
  rw [find_index_of_mem hs.core hs.size_lt hp hocc]
  simp only [Nat.ne_of_lt hpl, if_false, hp, List.length_set, hr, underload_]
  by_cases hun : 0 < s.cap_index_ ∧ 100 * (s.size_ - 1) < s.capacity_
  · rw [if_pos (by simpa using hun), if_pos hun]
    obtain ⟨c', hc', hlo, hhi⟩ := sched_pred hs.capacity_eq hun.1
    obtain ⟨s', hr', hcore, hsz', hperm', hh, hcap, hidx⟩ :=
      rehash_no_growth PRIME_CAPS_.length
        (s := { s with table_ := t', size_ := s.size_ - 1, cap_index_ := s.cap_index_ - 1 })
        ht' hc' (by simp only; omega)
    simp only at hsz' hperm' hh hcap hidx
    refine ⟨s', hr', ⟨hcore, by rw [hidx, hcap]; exact hc', by omega, ?_⟩, by omega,
      hperm.trans (List.Perm.cons _ hperm'.symm), hh, hidx⟩
    rcases Nat.lt_or_ge c' 100 with h | h
    · left; rw [hidx]; exact sched_small hc' h
    · right
      rcases hs.lower with h0 | h0
      · omega
      · omega
  · rw [if_neg (by simpa using hun), if_neg hun]
    refine ⟨_, rfl, ⟨⟨by simp only; rw [hl', hs.core.length_eq], by simp only; omega, ht'⟩,
      hs.capacity_eq, by simp only; omega, ?_⟩, by simp only; omega, hperm, rfl, rfl⟩
    simp only
    rcases Nat.eq_zero_or_pos s.cap_index_ with h | h
    · exact Or.inl h
    · exact Or.inr (by omega)

end StateErase
end RobinHood

namespace RobinHood
section Observations
variable {K V : Type}

theorem deref_eq {s : HashMap K V} {p : Nat} {b : Bucket K V} (hp : s.table_[p]? = some b) :
    deref s p = some b.item := by
  unfold deref; rw [hp]; rfl

variable [DecidableEq K]

/-- `find` returns `end()` exactly for the keys stored in no bucket. -/
theorem find_eq_end_iff {s : HashMap K V} (hs : Core s) (hlt : s.size_ < s.capacity_) (k : K) :
    find s k = some (end_ s) ↔ Absent s.table_ k := by
  unfold find end_
  constructor
  · intro h
    rcases absent_or_present s.table_ k with hab | ⟨p, b, hp, hbo, rfl⟩
    · exact hab
    · rw [find_index_of_mem hs hlt hp hbo] at h
      have := length_pos_of_getElem? hp
      simp only [Option.some.injEq] at h
      omega
  · intro h
    rw [find_index_of_absent hs hlt h, hs.length_eq]

/-- `find` returns an iterator to the pair `(k, v)` exactly when that pair is a live
entry of the table. -/
theorem find_deref_iff {s : HashMap K V} (hs : Core s) (hlt : s.size_ < s.capacity_) (k : K)
    (v : V) :
    (∃ it, find s k = some it ∧ it ≠ end_ s ∧ deref s it = some (k, v)) ↔
      (k, v) ∈ entries s.table_ := by
  constructor
  · rintro ⟨it, hf, hne, hd⟩
    rcases absent_or_present s.table_ k with hab | ⟨p, b, hp, hbo, rfl⟩
    · exact absurd (((find_eq_end_iff hs hlt k).mpr hab).symm.trans hf) (by simpa using hne.symm)
    · unfold find at hf
      rw [find_index_of_mem hs hlt hp hbo] at hf
      rw [← Option.some.inj hf, deref_eq hp] at hd
      exact mem_entries.mpr ⟨p, b, hp, hbo, by simpa using hd⟩
  · intro h
    obtain ⟨p, b, hp, hbo, hbi⟩ := mem_entries.mp h
    have hk : b.item.1 = k := by rw [hbi]
    refine ⟨p, ?_, Nat.ne_of_lt (length_pos_of_getElem? hp), by rw [deref_eq hp, hbi]⟩
    rw [← hk]
    exact find_index_of_mem hs hlt hp hbo

/-- `find` always returns: either `end()` or an iterator to an entry with the key. -/
theorem find_total {s : HashMap K V} (hs : Core s) (hlt : s.size_ < s.capacity_) (k : K) :
    ∃ it, find s k = some it ∧
      (it = end_ s ∨ (it < end_ s ∧ ∃ v, deref s it = some (k, v))) := by
  rcases absent_or_present s.table_ k with hab | ⟨p, b, hp, hbo, rfl⟩
  · exact ⟨_, (find_eq_end_iff hs hlt k).mpr hab, Or.inl rfl⟩
  · exact ⟨p, find_index_of_mem hs hlt hp hbo, Or.inr ⟨length_pos_of_getElem? hp, b.item.2,
      deref_eq hp⟩⟩

theorem find_ne_end_iff {s : HashMap K V} (hs : Core s) (hlt : s.size_ < s.capacity_) (k : K) :
    (∃ it, find s k = some it ∧ it ≠ end_ s) ↔ k ∈ (entries s.table_).map Prod.fst := by
  constructor
  · rintro ⟨it, hf, hne⟩
    obtain ⟨it', hf', h⟩ := find_total hs hlt k
    rw [hf] at hf'; cases hf'
    rcases h with h | ⟨_, v, hd⟩
    · exact absurd h hne
    · exact List.mem_map.mpr ⟨(k, v), (find_deref_iff hs hlt k v).mp ⟨it, hf, hne, hd⟩, rfl⟩
  · intro h
    obtain ⟨⟨k', v⟩, hm, rfl⟩ := List.mem_map.mp h
    obtain ⟨it, hf, hne, _⟩ := (find_deref_iff hs hlt k' v).mpr hm
    exact ⟨it, hf, hne⟩

end Observations

section Preservation
variable {K V : Type} [Inhabited K] [Inhabited V]

theorem clear_inv (s : HashMap K V) : Inv (clear s) := by
  refine ⟨⟨by simp [clear], ?_, tableInv_replicate_empty _ _ _ rfl⟩, rfl, by simp [clear],
    Or.inl rfl⟩
  simp [clear, entries_replicate_empty _ (default : Bucket K V) rfl]

theorem construct_inv {hasher : K → Nat} {s : HashMap K V} (h : construct hasher = some s) :
    Inv s ∧ s.size_ = 0 ∧ entries s.table_ = [] ∧ s.hasher_ = hasher ∧ s.cap_index_ = 0 := by
  unfold construct at h
  obtain ⟨s0, h0, hcore, hsz, hen, hh, hcap, hidx⟩ :=
    initialize_spec (s := (⟨hasher, [], 0, 0, 0⟩ : HashMap K V)) (c := 67) rfl
  rw [h0] at h; cases h
  exact ⟨⟨hcore, by rw [hidx, hcap]; rfl, by omega, Or.inl hidx⟩, hsz, hen, hh, hidx⟩

variable [DecidableEq K]

/-- The outcome of `insert` on a state satisfying the invariants. -/
theorem insert_cases {s : HashMap K V} (hs : Inv s) (item : K × V) :
    (¬ Absent s.table_ item.1 ∧ insert s item = some s) ∨
    (Absent s.table_ item.1 ∧ Exhausts s ∧ insert s item = none) ∨
    (Absent s.table_ item.1 ∧ ¬ Exhausts s ∧ ∃ s' : HashMap K V, insert s item = some s' ∧
      Inv s' ∧ s'.size_ = s.size_ + 1 ∧ (entries s'.table_).Perm (item :: entries s.table_) ∧
      s'.hasher_ = s.hasher_ ∧
      s'.cap_index_ = (if 9 * s.capacity_ ≤ 10 * (s.size_ + 1) then s.cap_index_ + 1
        else s.cap_index_)) := by
  rcases absent_or_present s.table_ item.1 with hab | ⟨p, b, hp, hbo, hk⟩
  · by_cases hex : Exhausts s
    · exact Or.inr (Or.inl ⟨hab, hex, insert_fuel_exhausts _ hs hab hex⟩)
    · exact Or.inr (Or.inr ⟨hab, hex, insert_fuel_new _ hs hab hex⟩)
  · left
    refine ⟨fun hab => hab p b hp hbo hk, ?_⟩
    have := insert_fuel_of_mem PRIME_CAPS_.length hs.core hs.size_lt hp hbo item.2
    rw [hk] at this
    exact this

theorem insert_inv {s s' : HashMap K V} (hs : Inv s) {item : K × V}
    (h : insert s item = some s') : Inv s' := by
  rcases insert_cases hs item with ⟨_, h1⟩ | ⟨_, _, h1⟩ | ⟨_, _, s1, h1, h2, _⟩
  · rw [h1] at h; cases h; exact hs
  · rw [h1] at h; cases h
  · rw [h1] at h; cases h; exact h2

/-- The outcome of `erase` on a state satisfying the invariants. -/
theorem erase_cases {s : HashMap K V} (hs : Inv s) (k : K) :
    (Absent s.table_ k ∧ erase s k = some s) ∨
    (∃ (v : V) (s' : HashMap K V), erase s k = some s' ∧ Inv s' ∧ s'.size_ + 1 = s.size_ ∧
      (entries s.table_).Perm ((k, v) :: entries s'.table_) ∧ s'.hasher_ = s.hasher_ ∧
      s'.cap_index_ = (if 0 < s.cap_index_ ∧ 100 * (s.size_ - 1) < s.capacity_
        then s.cap_index_ - 1 else s.cap_index_)) := by
  rcases absent_or_present s.table_ k with hab | ⟨p, b, hp, hbo, rfl⟩
  · exact Or.inl ⟨hab, erase_of_absent hs.core hs.size_lt hab⟩
  · exact Or.inr ⟨b.item.2, erase_of_mem hs hp hbo⟩

theorem erase_inv {s s' : HashMap K V} (hs : Inv s) {k : K} (h : erase s k = some s') :
    Inv s' := by
  rcases erase_cases hs k with ⟨_, h1⟩ | ⟨_, s1, h1, h2, _⟩
  · rw [h1] at h; cases h; exact hs
  · rw [h1] at h; cases h; exact h2

theorem subscript_state {s s' : HashMap K V} {key : K} {it : Nat}
    (h : subscript s key = some (s', it)) : s' = s ∨ insert s (key, default) = some s' := by
  unfold subscript at h
  cases hf : find s key with
  | none => simp [hf] at h
  | some i =>
    simp only [hf] at h
    split_ifs at h with h1 h2
    · cases hi : insert s (key, default) with
      | none => simp [hi] at h
      | some s1 =>
        simp only [hi] at h
        cases hf1 : find s1 key with
        | none => simp [hf1] at h
        | some i1 =>
          simp only [hf1] at h
          split_ifs at h
          cases h
          exact Or.inr rfl
    · cases h; exact Or.inl rfl

/-- Every reachable state satisfies the data-model invariants. -/
theorem Reachable.inv {s : HashMap K V} (h : Reachable s) : Inv s := by
  induction h with
  | construct hasher s h => exact (construct_inv h).1
  | insert s item s' _ h ih => exact insert_inv ih h
  | erase s key s' _ h ih => exact erase_inv ih h
  | subscript s key s' it _ h ih =>
    rcases subscript_state h with rfl | h1
    · exact ih
    · exact insert_inv ih h1
  | clear s _ _ => exact clear_inv s

end Preservation
end RobinHood

namespace RobinHood
section Bulk
variable {K V : Type} [DecidableEq K]

theorem Inv.size_eq_card {s : HashMap K V} (hs : Inv s) :
    s.size_ = ((entries s.table_).map Prod.fst).toFinset.card := by
  rw [List.toFinset_card_of_nodup hs.core.table.nodup_keys, List.length_map, hs.core.size_eq]

theorem mem_keys_iff {t : List (Bucket K V)} {k : K} :
    k ∈ (entries t).map Prod.fst ↔ ¬ Absent t k := by
  rw [absent_iff]
  constructor
  · intro h hab
    obtain ⟨⟨k', v⟩, hm, rfl⟩ := List.mem_map.mp h
    exact hab v hm
  · intro h
    by_contra hk
    exact h (fun v hv => hk (List.mem_map.mpr ⟨(k, v), hv, rfl⟩))

variable [Inhabited K] [Inhabited V]

/-- Sequential insertion (the loop of `create_`) into a state satisfying the
invariants, when the keys stored and inserted number at most 2066273: the loop
returns, the stored entries are kept, and each new key gets the value of its first
occurrence in the sequence. -/
theorem foldlM_insert_spec :
    ∀ (items : List (K × V)) (s : HashMap K V), Inv s →
      ((entries s.table_).map Prod.fst ++ items.map Prod.fst).toFinset.card ≤ 2066273 →
      ∃ s' : HashMap K V, items.foldlM insert s = some s' ∧ Inv s' ∧ s'.hasher_ = s.hasher_ ∧
        (∀ k v, (k, v) ∈ entries s'.table_ ↔ ((k, v) ∈ entries s.table_ ∨
          (Absent s.table_ k ∧ items.find? (fun p => decide (p.1 = k)) = some (k, v)))) ∧
        (∀ k, k ∈ (entries s'.table_).map Prod.fst ↔
          (k ∈ (entries s.table_).map Prod.fst ∨ k ∈ items.map Prod.fst)) := by
  intro items
  induction items with
  | nil =>
    intro s hs _
    refine ⟨s, rfl, hs, rfl, fun k v => ?_, fun k => ?_⟩ <;> simp
  | cons x xs ih =>
    intro s hs hcard
    rcases insert_cases hs x with ⟨hpres, h1⟩ | ⟨hab, hex, _⟩ | ⟨hab, _, s1, h1, hs1, _, hperm, hh1, _⟩
    · -- the key is already stored: the state is unchanged
      have hx : x.1 ∈ (entries s.table_).map Prod.fst := mem_keys_iff.mpr hpres
      obtain ⟨s', h2, hs2, hh2, hiff, hkeys⟩ := ih s hs (by
        refine le_trans (Finset.card_le_card ?_) hcard
        intro k
        simp only [List.mem_toFinset, List.mem_append, List.map_cons, List.mem_cons]
        tauto)
      refine ⟨s', by rw [List.foldlM_cons, h1]; exact h2, hs2, hh2, fun k v => ?_, fun k => ?_⟩
      · rw [hiff k v, List.find?_cons]
        by_cases hk : x.1 = k
        · have : ¬ Absent s.table_ k := hk ▸ hpres
          simp [this]
        · simp [hk]
      · rw [hkeys k, List.map_cons, List.mem_cons]
        constructor
        · tauto
        · rintro (h | rfl | h)
          · exact Or.inl h
          · exact Or.inl hx
          · exact Or.inr h
    · -- the schedule would be exhausted: excluded by the bound on the number of keys
      exfalso
      have hsz := (exhausts_iff hs).mp hex
      have hx : x.1 ∉ (entries s.table_).map Prod.fst := fun h => mem_keys_iff.mp h hab
      have hsub : Insert.insert x.1 ((entries s.table_).map Prod.fst).toFinset ⊆
          ((entries s.table_).map Prod.fst ++ (x :: xs).map Prod.fst).toFinset := by
        intro k
        simp only [Finset.mem_insert, List.mem_toFinset, List.mem_append, List.map_cons,
          List.mem_cons]
        tauto
      have hc := Finset.card_le_card hsub
      rw [Finset.card_insert_of_not_mem (by simpa using hx), ← hs.size_eq_card] at hc
      omega
    · -- a new key is stored
      have hmem : ∀ k v, (k, v) ∈ entries s1.table_ ↔ ((k, v) = x ∨ (k, v) ∈ entries s.table_) :=
        fun k v => by rw [hperm.mem_iff, List.mem_cons]
      have hkeys1 : ∀ k, k ∈ (entries s1.table_).map Prod.fst ↔
          (k = x.1 ∨ k ∈ (entries s.table_).map Prod.fst) := fun k => by
        rw [(hperm.map Prod.fst).mem_iff, List.map_cons, List.mem_cons]
      obtain ⟨s', h2, hs2, hh2, hiff, hkeys⟩ := ih s1 hs1 (by
        refine le_trans (Finset.card_le_card ?_) hcard
        intro k
        simp only [List.mem_toFinset, List.mem_append, List.map_cons, List.mem_cons, hkeys1]
        tauto)
      refine ⟨s', by rw [List.foldlM_cons, h1]; exact h2, hs2, by rw [hh2, hh1],
        fun k v => ?_, fun k => ?_⟩
      · have hab1 : Absent s1.table_ k ↔ (k ≠ x.1 ∧ Absent s.table_ k) := by
          rw [← not_iff_not, ← mem_keys_iff, hkeys1, mem_keys_iff]
          tauto
        rw [hiff k v, hmem, hab1, List.find?_cons]
        by_cases hk : x.1 = k
        · subst hk
          simp only [decide_True, ne_eq, not_true_eq_false, false_and, or_false,
            Option.some.injEq]
          constructor
          · rintro (h | h)
            · exact Or.inr ⟨hab, h.symm⟩
            · exact Or.inl h
          · rintro (h | ⟨_, h⟩)
            · exact Or.inr h
            · exact Or.inl h.symm
        · have hk' : k ≠ x.1 := fun h => hk h.symm
          have hne : (k, v) ≠ x := fun h => hk (by rw [← h])
          simp [hk, hk', hne]
      · rw [hkeys k, hkeys1, List.map_cons, List.mem_cons]
        tauto

end Bulk
end RobinHood

namespace RobinHood
section BulkConstruction
variable {K V : Type}

theorem Inv.size_le {s : HashMap K V} (hs : Inv s) : s.size_ ≤ 2066273 := by
  have h1 := hs.upper_lt
  have h2 := hs.capacity_bounds
  omega

variable [DecidableEq K]

theorem find?_key_iff_mem {l : List (K × V)} (hnd : (l.map Prod.fst).Nodup) (k : K) (v : V) :
    l.find? (fun p => decide (p.1 = k)) = some (k, v) ↔ (k, v) ∈ l := by
  induction l with
  | nil => simp
  | cons x xs ih =>
    rw [List.map_cons, List.nodup_cons] at hnd
    rw [List.find?_cons, List.mem_cons]
    by_cases hk : x.1 = k
    · subst hk
      simp only [decide_True, Option.some.injEq]
      constructor
      · intro h; exact Or.inl h.symm
      · rintro (h | h)
        · exact h.symm
        · exact absurd (List.mem_map_of_mem Prod.fst h) hnd.1
    · have hne : (k, v) ≠ x := fun h => hk (by rw [← h])
      simp [hk, hne, ih hnd.2]

variable [Inhabited K] [Inhabited V]

theorem foldlM_reachable :
    ∀ (items : List (K × V)) (s s' : HashMap K V), Reachable s →
      items.foldlM insert s = some s' → Reachable s' := by
  intro items
  induction items with
  | nil => intro s s' hs h; cases h; exact hs
  | cons x xs ih =>
    intro s s' hs h
    rw [List.foldlM_cons] at h
    cases h1 : insert s x with
    | none => rw [h1] at h; cases h
    | some s1 =>
      rw [h1] at h
      exact ih s1 s' (Reachable.insert s x s1 hs h1) h

theorem construct_range_eq (items : List (K × V)) (hasher : K → Nat) :
    construct_range items hasher =
      (construct hasher).bind (fun s0 => items.foldlM insert s0) := by
  unfold construct_range create_ construct
  cases initialize_ (⟨hasher, [], 0, 0, 0⟩ : HashMap K V) <;> rfl

/-- Bulk construction from a sequence with at most 2066273 distinct keys. -/
theorem construct_range_spec (items : List (K × V)) (hasher : K → Nat)
    (hb : (items.map Prod.fst).dedup.length ≤ 2066273) :
    ∃ s : HashMap K V, construct_range items hasher = some s ∧ Reachable s ∧
      s.hasher_ = hasher ∧ s.size_ = (items.map Prod.fst).dedup.length ∧
      (∀ k v, (k, v) ∈ entries s.table_ ↔
        items.find? (fun p => decide (p.1 = k)) = some (k, v)) ∧
      (∀ k, k ∈ (entries s.table_).map Prod.fst ↔ k ∈ items.map Prod.fst) := by
  obtain ⟨s0, h0, hcore, hsz, hen, hh, hcap, hidx⟩ :=
    initialize_spec (s := (⟨hasher, [], 0, 0, 0⟩ : HashMap K V)) (c := 67) rfl
  have hc0 : construct hasher = some s0 := h0
  have hinv0 := (construct_inv hc0).1
  obtain ⟨s, h1, hs, hh1, hiff, hkeys⟩ := foldlM_insert_spec items s0 hinv0 (by
    rw [hen, List.map_nil, List.nil_append, List.card_toFinset]; exact hb)
  have hr : Reachable s := foldlM_reachable items s0 s (Reachable.construct hasher s0 hc0) h1
  have hab : ∀ k, Absent s0.table_ k := fun k => by
    rw [absent_iff, hen]; intro v hv; simp at hv
  refine ⟨s, by rw [construct_range_eq, hc0]; exact h1, hr, by rw [hh1, hh], ?_, ?_, ?_⟩
  · rw [hs.size_eq_card, ← List.card_toFinset]
    congr 1
    ext k
    simp only [List.mem_toFinset]
    rw [hkeys k, hen]
    simp
  · intro k v
    rw [hiff k v, hen]
    simp [hab k]
  · intro k
    rw [hkeys k, hen]
    simp

/-- Bulk construction has no result when the sequence continues with a new key after
2066273 distinct keys. -/
theorem construct_range_exhausts {pre : List (K × V)} (hnd : (pre.map Prod.fst).Nodup)
    (hlen : pre.length = 2066273) {x : K × V} (hx : x.1 ∉ pre.map Prod.fst)
    (rest : List (K × V)) (hasher : K → Nat) :
    construct_range (pre ++ x :: rest) hasher = none := by
  obtain ⟨s0, h0, _⟩ :=
    initialize_spec (s := (⟨hasher, [], 0, 0, 0⟩ : HashMap K V)) (c := 67) rfl
  have hc0 : construct hasher = some s0 := h0
  obtain ⟨s, h1, hr, _, hsz, _, hkeys⟩ := construct_range_spec pre hasher (by
    rw [List.Nodup.dedup hnd, List.length_map, hlen])
  rw [List.Nodup.dedup hnd, List.length_map, hlen] at hsz
  rw [construct_range_eq, hc0] at h1
  rw [construct_range_eq, hc0]
  simp only [Option.some_bind] at h1 ⊢
  rw [List.foldlM_append, h1]
  simp only [Option.bind_eq_bind, Option.some_bind, List.foldlM_cons]
  rcases insert_cases hr.inv x with ⟨hp, _⟩ | ⟨_, _, h2⟩ | ⟨_, hne, _⟩
  · exact absurd ((hkeys x.1).mp (mem_keys_iff.mpr hp)) hx
  · rw [h2]; rfl
  · exact absurd ((exhausts_iff hr.inv).mpr hsz) hne

/-- Assignment from a different container satisfying the invariants. -/
theorem assign_spec (a : HashMap K V) {b : HashMap K V} (hb : Inv b) :
    ∃ a' : HashMap K V, assign a b false = some a' ∧ Inv a' ∧ a'.hasher_ = a.hasher_ ∧
      a'.size_ = b.size_ ∧ (∀ k v, (k, v) ∈ entries a'.table_ ↔ (k, v) ∈ entries b.table_) := by
  have hnd := hb.core.table.nodup_keys
  have hen : entries (clear a).table_ = [] := entries_replicate_empty _ _ rfl
  obtain ⟨a', h1, ha', hh, hiff, hkeys⟩ := foldlM_insert_spec (entries b.table_) (clear a)
    (clear_inv a) (by
      rw [hen, List.map_nil, List.nil_append, ← hb.size_eq_card]; exact hb.size_le)
  have hab : ∀ k, Absent (clear a).table_ k := fun k => by
    rw [absent_iff, hen]; intro v hv; simp at hv
  refine ⟨a', ?_, ha', hh, ?_, ?_⟩
  · unfold assign
    rw [iterate_eq]
    simp only [Bool.false_eq_true, if_false, indexed_map_snd]
    unfold create_
    have : initialize_ (clear a) = some (clear a) := rfl
    rw [this]
    exact h1
  · rw [ha'.size_eq_card, hb.size_eq_card]
    congr 1
    ext k
    simp only [List.mem_toFinset]
    rw [hkeys k, hen]
    simp
  · intro k v
    rw [hiff k v, hen, find?_key_iff_mem hnd]
    simp [hab k]

end BulkConstruction
end RobinHood

namespace RobinHood
section Contract
variable {K V : Type} [DecidableEq K] [Inhabited K] [Inhabited V]

/-- Round trip for every insertion that does not exhaust the capacity schedule: in a
reachable state, for a key `k` that `find` reports absent, `insert((k, v))` returns a
state in which `find(k)` is an iterator to `(k, v)` and `size()` is one larger. -/
theorem insert_round_trip {s : HashMap K V} (hs : Reachable s) {k : K}
    (hf : find s k = some (end_ s)) (v : V) (hne : ¬ Exhausts s) :
    ∃ (s' : HashMap K V) (it : Nat), insert s (k, v) = some s' ∧ find s' k = some it ∧
      it ≠ end_ s' ∧ deref s' it = some (k, v) ∧ size s' = size s + 1 := by
  have hinv := hs.inv
  have hab := (find_eq_end_iff hinv.core hinv.size_lt k).mp hf
  rcases insert_cases hinv (k, v) with ⟨hp, _⟩ | ⟨_, hex, _⟩ | ⟨_, _, s', h1, hs', hsz, hperm, _⟩
  · exact absurd hab hp
  · exact absurd hex hne
  · obtain ⟨it, h2, h3, h4⟩ := (find_deref_iff hs'.core hs'.size_lt k v).mpr
      (hperm.mem_iff.mpr (List.mem_cons_self _ _))
    exact ⟨s', it, h1, h2, h3, h4, hsz⟩

/-- Insertion frame for every insertion that returns: the entries stored under keys
other than the inserted one are found as before, with the same value. -/
theorem insert_frame {s s' : HashMap K V} (hs : Reachable s) {k : K} {v : V}
    (h : insert s (k, v) = some s') {k' : K} (hk : k' ≠ k) :
    (find s' k' = some (end_ s') ↔ find s k' = some (end_ s)) ∧
    ∀ v', (∃ it, find s' k' = some it ∧ it ≠ end_ s' ∧ deref s' it = some (k', v')) ↔
      (∃ it, find s k' = some it ∧ it ≠ end_ s ∧ deref s it = some (k', v')) := by
  have hinv := hs.inv
  have hinv' := insert_inv hinv h
  have hmem : ∀ v', (k', v') ∈ entries s'.table_ ↔ (k', v') ∈ entries s.table_ := by
    intro v'
    rcases insert_cases hinv (k, v) with ⟨_, h1⟩ | ⟨_, _, h1⟩ | ⟨_, _, s1, h1, _, _, hperm, _⟩
    · rw [h1] at h; cases h; rfl
    · rw [h1] at h; cases h
    · rw [h1] at h; cases h
      rw [hperm.mem_iff, List.mem_cons]
      constructor
      · rintro (h2 | h2)
        · exact absurd (congrArg Prod.fst h2) hk
        · exact h2
      · exact Or.inr
  refine ⟨?_, fun v' => ?_⟩
  · rw [find_eq_end_iff hinv'.core hinv'.size_lt, find_eq_end_iff hinv.core hinv.size_lt,
      absent_iff, absent_iff]
    exact forall_congr' (fun v' => not_congr (hmem v'))
  · rw [find_deref_iff hinv'.core hinv'.size_lt, find_deref_iff hinv.core hinv.size_lt]
    exact hmem v'

/-- C2 (first-write-wins): in a reachable state in which `find(k)` is an iterator to an
entry `(k, v1)`, the call `insert((k, v2))` returns the state with the same bucket
array, `size_`, `cap_index_` and `capacity_`, so `find(k)` still yields `v1`. -/
theorem C2_insert_present_unchanged {s : HashMap K V} (hs : Reachable s) {k : K} {v1 : V}
    {it : Nat} (hf : find s k = some it) (hne : it ≠ end_ s)
    (hd : deref s it = some (k, v1)) (v2 : V) :
    ∃ s' : HashMap K V, insert s (k, v2) = some s' ∧ s' = s ∧ s'.table_ = s.table_ ∧
      s'.size_ = s.size_ ∧ s'.cap_index_ = s.cap_index_ ∧ s'.capacity_ = s.capacity_ ∧
      find s' k = some it ∧ deref s' it = some (k, v1) := by
  have hinv := hs.inv
  have hmem := (find_deref_iff hinv.core hinv.size_lt k v1).mp ⟨it, hf, hne, hd⟩
  rcases insert_cases hinv (k, v2) with ⟨_, h1⟩ | ⟨hab, _⟩ | ⟨hab, _⟩
  · exact ⟨s, h1, rfl, rfl, rfl, rfl, rfl, hf, hd⟩
  · exact absurd hmem (absent_iff.mp hab v1)
  · exact absurd hmem (absent_iff.mp hab v1)

/-- C3 (deletion completeness): in a reachable state `erase(k)` returns a state in
which `find(k)` is `end()`; `size()` is one less when `find(k)` was not `end()` and
is the same when it was. -/
theorem C3_erase_complete {s : HashMap K V} (hs : Reachable s) (k : K) :
    ∃ s' : HashMap K V, erase s k = some s' ∧ find s' k = some (end_ s') ∧
      ((∃ it, find s k = some it ∧ it ≠ end_ s) → size s' + 1 = size s) ∧
      (find s k = some (end_ s) → size s' = size s) := by
  have hinv := hs.inv
  rcases erase_cases hinv k with ⟨hab, h1⟩ | ⟨v, s', h1, hs', hsz, hperm, _⟩
  · have hf := (find_eq_end_iff hinv.core hinv.size_lt k).mpr hab
    refine ⟨s, h1, hf, ?_, fun _ => rfl⟩
    rintro ⟨it, h2, h3⟩
    rw [hf] at h2
    exact absurd (Option.some.inj h2).symm h3
  · have hnd := hinv.core.table.nodup_keys
    rw [(hperm.map Prod.fst).nodup_iff, List.map_cons, List.nodup_cons] at hnd
    have hab : Absent s'.table_ k := by
      by_contra hcon
      exact hnd.1 (mem_keys_iff.mpr hcon)
    refine ⟨s', h1, (find_eq_end_iff hs'.core hs'.size_lt k).mpr hab, fun _ => hsz, ?_⟩
    intro hf
    have := (find_eq_end_iff hinv.core hinv.size_lt k).mp hf
    exact absurd (hperm.mem_iff.mpr (List.mem_cons_self _ _)) (absent_iff.mp this v)

/-- C5 (checked access): in a reachable state `at(k)` throws `std::out_of_range`
exactly when `find(k)` is `end()`, returns the value stored under `k` otherwise, and
has no other outcome; `at` is a `const` member, its model returns no new state.  On a
freshly constructed container `at(k)` throws for every key. -/
theorem C5_at_checked {s : HashMap K V} (hs : Reachable s) (k : K) :
    (HashMap.at s k = Except.error Failure.out_of_range ↔ find s k = some (end_ s)) ∧
    (∀ it, find s k = some it → it ≠ end_ s →
      ∃ v, deref s it = some (k, v) ∧ HashMap.at s k = Except.ok v) ∧
    HashMap.at s k ≠ Except.error Failure.undefined ∧
    (∀ (hasher : K → Nat) (s0 : HashMap K V), construct hasher = some s0 →
      HashMap.at s0 k = Except.error Failure.out_of_range) := by
  have key : ∀ {s : HashMap K V}, Inv s →
      (find s k = some (end_ s) ∧ HashMap.at s k = Except.error Failure.out_of_range) ∨
      (∃ it v, find s k = some it ∧ it ≠ end_ s ∧ deref s it = some (k, v) ∧
        HashMap.at s k = Except.ok v) := by
    intro s hinv
    obtain ⟨it, hf, h⟩ := find_total hinv.core hinv.size_lt k
    rcases h with rfl | ⟨hlt, v, hd⟩
    · left
      refine ⟨hf, ?_⟩
      unfold HashMap.at
      rw [hf]
      simp
    · right
      refine ⟨it, v, hf, Nat.ne_of_lt hlt, hd, ?_⟩
      unfold HashMap.at
      rw [hf]
      simp only [Nat.ne_of_lt hlt, if_false, hd]
  refine ⟨?_, ?_, ?_, ?_⟩
  · rcases key hs.inv with ⟨h1, h2⟩ | ⟨it, v, h1, h2, _, h4⟩
    · exact ⟨fun _ => h1, fun _ => h2⟩
    · constructor
      · intro h; rw [h4] at h; cases h
      · intro h; rw [h1] at h; exact absurd (Option.some.inj h) h2
  · intro it hf hne
    rcases key hs.inv with ⟨h1, _⟩ | ⟨it', v, h1, _, h3, h4⟩
    · rw [hf] at h1; exact absurd (Option.some.inj h1) hne
    · rw [hf] at h1; cases h1; exact ⟨v, h3, h4⟩
  · rcases key hs.inv with ⟨_, h2⟩ | ⟨_, v, _, _, _, h4⟩
    · rw [h2]; intro h; cases h
    · rw [h4]; intro h; cases h
  · intro hasher s0 h0
    obtain ⟨hinv0, _, hen, _⟩ := construct_inv h0
    rcases key hinv0 with ⟨_, h2⟩ | ⟨it, v, h1, h2, h3, _⟩
    · exact h2
    · have := (find_deref_iff hinv0.core hinv0.size_lt k v).mp ⟨it, h1, h2, h3⟩
      rw [hen] at this
      simp at this

end Contract
end RobinHood

namespace RobinHood
section ContractIteration
variable {K V : Type} [DecidableEq K] [Inhabited K] [Inhabited V]

/-- Indexed access in a reachable state: a stored key gives back the state and the
iterator `find` returns; for a key that is not stored, and unless the insertion
exhausts the capacity schedule, the state is the one `insert((k, V()))` returns and the
slot is the one `find(k)` locates there; at the end of the schedule there is no
result. -/
theorem subscript_spec {s : HashMap K V} (hs : Reachable s) (k : K) :
    (∀ it, find s k = some it → it ≠ end_ s → subscript s k = some (s, it)) ∧
    (find s k = some (end_ s) → ¬ Exhausts s →
      ∃ (s' : HashMap K V) (it : Nat), subscript s k = some (s', it) ∧
        insert s (k, default) = some s' ∧ find s' k = some it ∧ it ≠ end_ s' ∧
        deref s' it = some (k, default) ∧ size s' = size s + 1) ∧
    (find s k = some (end_ s) → Exhausts s → subscript s k = none) := by
  have hinv := hs.inv
  refine ⟨?_, ?_, ?_⟩
  · intro it hf hne
    obtain ⟨it', hf', h⟩ := find_total hinv.core hinv.size_lt k
    rw [hf] at hf'; cases hf'
    rcases h with h | ⟨hlt, _⟩
    · exact absurd h hne
    · unfold subscript
      rw [hf]
      simp only [hne, if_false]
      exact if_pos hlt
  · intro hf hne
    obtain ⟨s', it, h1, h2, h3, h4, h5⟩ := insert_round_trip hs hf (default : V) hne
    have hinv' := insert_inv hinv h1
    obtain ⟨it', hf', h⟩ := find_total hinv'.core hinv'.size_lt k
    rw [h2] at hf'; cases hf'
    have hlt : it < s'.table_.length := by
      rcases h with h | ⟨hlt, _⟩
      · exact absurd h h3
      · exact hlt
    refine ⟨s', it, ?_, h1, h2, h3, h4, h5⟩
    unfold subscript
    rw [hf]
    simp only [if_true, h1, h2]
    rw [if_pos hlt]
  · intro hf hex
    have hab := (find_eq_end_iff hinv.core hinv.size_lt k).mp hf
    unfold subscript
    rw [hf]
    simp only [if_true]
    have : insert s (k, (default : V)) = none := insert_fuel_exhausts _ hinv hab hex
    rw [this]

/-- C7 (iteration completeness): in a reachable state the traversal from `begin()` with
`operator++` up to `end()` returns; the offsets it visits increase strictly and are
exactly the offsets of the occupied buckets, each yielding the pair stored there;
it yields `size()` entries with pairwise different keys, and a key is yielded exactly
when `find` does not return `end()` for it. -/
theorem C7_iteration_complete {s : HashMap K V} (hs : Reachable s) :
    ∃ visited : List (Nat × (K × V)), iterate s = some visited ∧
      (visited.map Prod.fst).Pairwise (· < ·) ∧
      (∀ i, i ∈ visited.map Prod.fst ↔
        ∃ b : Bucket K V, s.table_[i]? = some b ∧ b.empty = false) ∧
      (∀ p ∈ visited, deref s p.1 = some p.2) ∧
      visited.length = size s ∧
      (visited.map (fun p => p.2.1)).Nodup ∧
      (∀ k, k ∈ visited.map (fun p => p.2.1) ↔ ∃ it, find s k = some it ∧ it ≠ end_ s) := by
  have hinv := hs.inv
  have hkeys : (indexed 0 s.table_).map (fun p => p.2.1) = (entries s.table_).map Prod.fst := by
    rw [← indexed_map_snd 0 s.table_, List.map_map]; rfl
  refine ⟨indexed 0 s.table_, iterate_eq s, indexed_sorted 0 _, ?_, ?_, ?_, ?_, ?_⟩
  · intro i
    constructor
    · intro h
      obtain ⟨⟨i', x⟩, hm, rfl⟩ := List.mem_map.mp h
      obtain ⟨_, b, hb, hbo, _⟩ := mem_indexed.mp hm
      exact ⟨b, by simpa using hb, hbo⟩
    · rintro ⟨b, hb, hbo⟩
      exact List.mem_map.mpr ⟨(i, b.item), mem_indexed.mpr ⟨Nat.zero_le _, b, by simpa using hb,
        hbo, rfl⟩, rfl⟩
  · rintro ⟨i, x⟩ hm
    obtain ⟨_, b, hb, _, hbx⟩ := mem_indexed.mp hm
    rw [Nat.sub_zero] at hb
    rw [deref_eq hb, hbx]
  · have := congrArg List.length (indexed_map_snd 0 s.table_)
    rw [List.length_map] at this
    rw [this, ← hinv.core.size_eq]; rfl
  · rw [hkeys]; exact hinv.core.table.nodup_keys
  · intro k
    rw [hkeys]
    exact (find_ne_end_iff hinv.core hinv.size_lt k).symm

/-- Bulk construction from a sequence with at most 2066273 distinct keys: the
constructor returns a state in which a key is found exactly when it occurs in the
sequence, with the value of its first occurrence, and `size()` is the number of
distinct keys. -/
theorem construct_range_contract (items : List (K × V)) (hasher : K → Nat)
    (hb : (items.map Prod.fst).dedup.length ≤ 2066273) :
    ∃ s : HashMap K V, construct_range items hasher = some s ∧
      (∀ k, (∃ it, find s k = some it ∧ it ≠ end_ s) ↔ k ∈ items.map Prod.fst) ∧
      (∀ k v, (∃ it, find s k = some it ∧ it ≠ end_ s ∧ deref s it = some (k, v)) ↔
        items.find? (fun p => decide (p.1 = k)) = some (k, v)) ∧
      size s = (items.map Prod.fst).dedup.length := by
  obtain ⟨s, h1, hr, _, hsz, hiff, hkeys⟩ := construct_range_spec items hasher hb
  have hinv := hr.inv
  refine ⟨s, h1, fun k => ?_, fun k v => ?_, hsz⟩
  · rw [find_ne_end_iff hinv.core hinv.size_lt, hkeys]
  · rw [find_deref_iff hinv.core hinv.size_lt, hiff]

/-- C9 (assignment): for reachable containers `a` and `b`, which may use different hash
functions, `a = b` with `&b != &a` returns a state of `a` that keeps the hash function
of `a`, has the size of `b`, and in which every key is found exactly when it is found
in `b`, with the same value - so no entry of `a` that is missing from `b` remains; `b`
is a `const` argument and has no new state.  With `&b == &a` the state of `a` is
returned unchanged. -/
theorem C9_assign {a b : HashMap K V} (ha : Reachable a) (hb : Reachable b) :
    (∃ a' : HashMap K V, assign a b false = some a' ∧ a'.hasher_ = a.hasher_ ∧
      size a' = size b ∧
      (∀ k, find a' k = some (end_ a') ↔ find b k = some (end_ b)) ∧
      (∀ k v, (∃ it, find a' k = some it ∧ it ≠ end_ a' ∧ deref a' it = some (k, v)) ↔
        (∃ it, find b k = some it ∧ it ≠ end_ b ∧ deref b it = some (k, v)))) ∧
    assign a a true = some a := by
  have _ := ha
  have hinvb := hb.inv
  obtain ⟨a', h1, hinv', hh, hsz, hiff⟩ := assign_spec a hinvb
  refine ⟨⟨a', h1, hh, hsz, fun k => ?_, fun k v => ?_⟩, rfl⟩
  · rw [find_eq_end_iff hinv'.core hinv'.size_lt, find_eq_end_iff hinvb.core hinvb.size_lt,
      absent_iff, absent_iff]
    exact forall_congr' (fun v => not_congr (hiff k v))
  · rw [find_deref_iff hinv'.core hinv'.size_lt, find_deref_iff hinvb.core hinvb.size_lt]
    exact hiff k v

/-- Load-factor interval on a state satisfying the data-model invariants: `erase`
always returns, `insert` returns unless it exhausts the capacity schedule, and every
state either of them returns has `10 * size_ ≤ 9 * capacity_` and `cap_index_ = 0` or
`capacity_ ≤ 100 * size_`. -/
theorem load_factor_interval {s : HashMap K V} (hs : Inv s) :
    (∀ k, ∃ s' : HashMap K V, erase s k = some s' ∧ 10 * s'.size_ ≤ 9 * s'.capacity_ ∧
      (s'.cap_index_ = 0 ∨ s'.capacity_ ≤ 100 * s'.size_)) ∧
    (∀ item, (¬ Exhausts s ∨ ¬ Absent s.table_ item.1) →
      ∃ s' : HashMap K V, insert s item = some s' ∧ 10 * s'.size_ ≤ 9 * s'.capacity_ ∧
        (s'.cap_index_ = 0 ∨ s'.capacity_ ≤ 100 * s'.size_)) ∧
    (∀ item, Exhausts s → Absent s.table_ item.1 → insert s item = none) := by
  refine ⟨fun k => ?_, fun item h => ?_, fun item hex hab => insert_fuel_exhausts _ hs hab hex⟩
  · rcases erase_cases hs k with ⟨_, h1⟩ | ⟨_, s', h1, hs', _⟩
    · exact ⟨s, h1, hs.upper, hs.lower⟩
    · exact ⟨s', h1, hs'.upper, hs'.lower⟩
  · rcases insert_cases hs item with ⟨_, h1⟩ | ⟨hab, hex, _⟩ | ⟨_, _, s', h1, hs', _⟩
    · exact ⟨s, h1, hs.upper, hs.lower⟩
    · rcases h with h | h
      · exact absurd hex h
      · exact absurd hab h
    · exact ⟨s', h1, hs'.upper, hs'.lower⟩

end ContractIteration
end RobinHood

namespace RobinHood
section ScheduleEnd

theorem filling_keys : filling_items.map Prod.fst = List.range 2066273 := by
  unfold filling_items
  rw [List.map_map]
  exact List.map_id'' (fun _ => rfl) _

theorem filling_length : filling_items.length = 2066273 := by
  unfold filling_items
  rw [List.length_map, List.length_range]

theorem filling_nodup : (filling_items.map Prod.fst).Nodup := by
  rw [filling_keys]; exact List.nodup_range _

/-- The container built from `filling_items` with the identity hash is reachable, holds
exactly these pairs, and is at the point where the next new key exhausts the
schedule. -/
theorem filling_state :
    ∃ s : HashMap Nat Nat, construct_range filling_items (fun k => k) = some s ∧
      Reachable s ∧ Exhausts s ∧
      (∀ k v, (k, v) ∈ entries s.table_ ↔ (k, v) ∈ filling_items) := by
  have hd : (filling_items.map Prod.fst).dedup.length = 2066273 := by
    rw [List.Nodup.dedup filling_nodup, List.length_map, filling_length]
  obtain ⟨s, h1, hr, _, hsz, hiff, _⟩ := construct_range_spec filling_items (fun k => k)
    (le_of_eq hd)
  refine ⟨s, h1, hr, (exhausts_iff hr.inv).mpr (hsz.trans hd), fun k v => ?_⟩
  rw [hiff k v, find?_key_iff_mem filling_nodup]

theorem filling_absent {s : HashMap Nat Nat}
    (h : ∀ k v, (k, v) ∈ entries s.table_ ↔ (k, v) ∈ filling_items) :
    Absent s.table_ 2066273 := by
  rw [absent_iff]
  intro v hv
  have h1 : (2066273 : Nat) ∈ filling_items.map Prod.fst :=
    List.mem_map.mpr ⟨(2066273, v), (h _ _).mp hv, rfl⟩
  rw [filling_keys, List.mem_range] at h1
  exact absurd h1 (lt_irrefl _)

/-- C1, failing input: the container holding the 2066273 pairs `(i, 0)`, `i < 2066273`,
is reachable and `find(2066273)` is `end()`, yet `insert((2066273, 7))` has no result:
the new size 2066274 reaches the growth threshold of the last capacity 2295859,
`cap_index_` becomes 16 and `initialize_` reads `PRIME_CAPS_[16]`. -/
theorem C1_insert_fails_at_schedule_end :
    ∃ s : HashMap Nat Nat, construct_range filling_items (fun k => k) = some s ∧
      Reachable s ∧ find s 2066273 = some (end_ s) ∧ insert s (2066273, 7) = none := by
  obtain ⟨s, h1, hr, hex, hiff⟩ := filling_state
  have hab := filling_absent hiff
  exact ⟨s, h1, hr, (find_eq_end_iff hr.inv.core hr.inv.size_lt _).mpr hab,
    insert_fuel_exhausts _ hr.inv hab hex⟩

/-- C4, failing input: in the container holding the pairs `(i, 0)`, `i < 2066273`, the
key 0 is found with value 0, and after `insert((2066273, 7))` no call `find(0)` has
a result, because the insertion has none. -/
theorem C4_insert_frame_fails_at_schedule_end :
    ∃ s : HashMap Nat Nat, construct_range filling_items (fun k => k) = some s ∧
      Reachable s ∧ (∃ it, find s 0 = some it ∧ it ≠ end_ s ∧ deref s it = some (0, 0)) ∧
      (insert s (2066273, 7)).bind (fun s' => find s' 0) = none := by
  obtain ⟨s, h1, hr, hex, hiff⟩ := filling_state
  have hab := filling_absent hiff
  have h0 : ((0 : Nat), (0 : Nat)) ∈ filling_items :=
    List.mem_map.mpr ⟨0, List.mem_range.mpr (by norm_num), rfl⟩
  refine ⟨s, h1, hr, (find_deref_iff hr.inv.core hr.inv.size_lt 0 0).mpr ((hiff 0 0).mpr h0), ?_⟩
  rw [show insert s (2066273, 7) = none from insert_fuel_exhausts _ hr.inv hab hex]
  rfl

/-- C6, failing input: in the container holding the pairs `(i, 0)`, `i < 2066273`, the
key 2066273 is absent and `operator[](2066273)` has no result. -/
theorem C6_subscript_fails_at_schedule_end :
    ∃ s : HashMap Nat Nat, construct_range filling_items (fun k => k) = some s ∧
      Reachable s ∧ find s 2066273 = some (end_ s) ∧ subscript s 2066273 = none := by
  obtain ⟨s, h1, hr, hex, hiff⟩ := filling_state
  have hf := (find_eq_end_iff hr.inv.core hr.inv.size_lt _).mpr (filling_absent hiff)
  exact ⟨s, h1, hr, hf, (subscript_spec hr 2066273).2.2 hf hex⟩

/-- C8, failing input: bulk construction from the 2066274 pairs `(i, 0)`, `i < 2066273`,
followed by `(2066273, 0)` has no result. -/
theorem C8_construct_range_fails_beyond_schedule :
    construct_range (filling_items ++ [(2066273, 0)]) (fun k => k) = none := by
  refine construct_range_exhausts filling_nodup filling_length ?_ [] _
  rw [filling_keys, List.mem_range]
  exact lt_irrefl _

/-- C10, failing input: the container holding the pairs `(i, 0)`, `i < 2066273`,
satisfies the data-model invariants, with `size_ = 2066273` and
`capacity_ = 2295859`; `insert((2066273, 7))` returns no state, the load factor
`2066274 / 2295859` it reaches being above 0.9. -/
theorem C10_load_factor_unresolved_at_schedule_end :
    ∃ s : HashMap Nat Nat, construct_range filling_items (fun k => k) = some s ∧ Inv s ∧
      s.size_ = 2066273 ∧ s.capacity_ = 2295859 ∧ 9 * s.capacity_ < 10 * (s.size_ + 1) ∧
      insert s (2066273, 7) = none := by
  obtain ⟨s, h1, hr, hex, hiff⟩ := filling_state
  have hsz := (exhausts_iff hr.inv).mp hex
  have hcap := (sched_last hr.inv.capacity_eq).mp hex.1
  exact ⟨s, h1, hr.inv, hsz, hcap, by omega,
    insert_fuel_exhausts _ hr.inv (filling_absent hiff) hex⟩

end ScheduleEnd

section Witnesses

/-- C2 at `sample_one`: `insert((3, 9))` leaves the state holding `(3, 4)` unchanged. -/
theorem C2_witness :
    Reachable sample_one ∧ find sample_one 3 = some 3 ∧ 3 ≠ end_ sample_one ∧
      deref sample_one 3 = some (3, 4) ∧
      ∃ s' : HashMap Nat Nat, insert sample_one (3, 9) = some s' ∧ s' = sample_one ∧
        s'.table_ = sample_one.table_ ∧ s'.size_ = sample_one.size_ ∧
        s'.cap_index_ = sample_one.cap_index_ ∧ s'.capacity_ = sample_one.capacity_ ∧
        find s' 3 = some 3 ∧ deref s' 3 = some (3, 4) :=
  ⟨Reachable.insert sample_empty (3, 4) sample_one
      (Reachable.construct (fun k => k) sample_empty rfl) rfl,
    by decide, by decide, by decide,
    C2_insert_present_unchanged
      (Reachable.insert sample_empty (3, 4) sample_one
        (Reachable.construct (fun k => k) sample_empty rfl) rfl)
      (by decide) (by decide) (by decide) 9⟩

/-- C3 at `sample_one`: `erase(3)` returns a state without the key 3. -/
theorem C3_witness :
    Reachable sample_one ∧
      ∃ s' : HashMap Nat Nat, erase sample_one 3 = some s' ∧ find s' 3 = some (end_ s') ∧
        ((∃ it, find sample_one 3 = some it ∧ it ≠ end_ sample_one) →
          size s' + 1 = size sample_one) ∧
        (find sample_one 3 = some (end_ sample_one) → size s' = size sample_one) :=
  ⟨Reachable.insert sample_empty (3, 4) sample_one
      (Reachable.construct (fun k => k) sample_empty rfl) rfl,
    C3_erase_complete
      (Reachable.insert sample_empty (3, 4) sample_one
        (Reachable.construct (fun k => k) sample_empty rfl) rfl) 3⟩

/-- C5 at `sample_one` and the key 3. -/
theorem C5_witness :
    Reachable sample_one ∧
      (HashMap.at sample_one 3 = Except.error Failure.out_of_range ↔
        find sample_one 3 = some (end_ sample_one)) ∧
      (∀ it, find sample_one 3 = some it → it ≠ end_ sample_one →
        ∃ v, deref sample_one it = some (3, v) ∧ HashMap.at sample_one 3 = Except.ok v) ∧
      HashMap.at sample_one 3 ≠ Except.error Failure.undefined ∧
      (∀ (hasher : Nat → Nat) (s0 : HashMap Nat Nat), construct hasher = some s0 →
        HashMap.at s0 3 = Except.error Failure.out_of_range) :=
  ⟨Reachable.insert sample_empty (3, 4) sample_one
      (Reachable.construct (fun k => k) sample_empty rfl) rfl,
    C5_at_checked
      (Reachable.insert sample_empty (3, 4) sample_one
        (Reachable.construct (fun k => k) sample_empty rfl) rfl) 3⟩

/-- C7 at `sample_two`, whose occupied buckets are 3 and 4. -/
theorem C7_witness :
    Reachable sample_two ∧
      ∃ visited : List (Nat × (Nat × Nat)), iterate sample_two = some visited ∧
        (visited.map Prod.fst).Pairwise (· < ·) ∧
        (∀ i, i ∈ visited.map Prod.fst ↔
          ∃ b : Bucket Nat Nat, sample_two.table_[i]? = some b ∧ b.empty = false) ∧
        (∀ p ∈ visited, deref sample_two p.1 = some p.2) ∧
        visited.length = size sample_two ∧
        (visited.map (fun p => p.2.1)).Nodup ∧
        (∀ k, k ∈ visited.map (fun p => p.2.1) ↔
          ∃ it, find sample_two k = some it ∧ it ≠ end_ sample_two) :=
  ⟨Reachable.insert sample_one (70, 5) sample_two
      (Reachable.insert sample_empty (3, 4) sample_one
        (Reachable.construct (fun k => k) sample_empty rfl) rfl) rfl,
    C7_iteration_complete
      (Reachable.insert sample_one (70, 5) sample_two
        (Reachable.insert sample_empty (3, 4) sample_one
          (Reachable.construct (fun k => k) sample_empty rfl) rfl) rfl)⟩

/-- C9 for `a = sample_one` and `b = sample_two`. -/
theorem C9_witness :
    Reachable sample_one ∧ Reachable sample_two ∧
      (∃ a' : HashMap Nat Nat, assign sample_one sample_two false = some a' ∧
        a'.hasher_ = sample_one.hasher_ ∧ size a' = size sample_two ∧
        (∀ k, find a' k = some (end_ a') ↔ find sample_two k = some (end_ sample_two)) ∧
        (∀ k v, (∃ it, find a' k = some it ∧ it ≠ end_ a' ∧ deref a' it = some (k, v)) ↔
          (∃ it, find sample_two k = some it ∧ it ≠ end_ sample_two ∧
            deref sample_two it = some (k, v)))) ∧
      assign sample_one sample_one true = some sample_one :=
  ⟨Reachable.insert sample_empty (3, 4) sample_one
      (Reachable.construct (fun k => k) sample_empty rfl) rfl,
    Reachable.insert sample_one (70, 5) sample_two
      (Reachable.insert sample_empty (3, 4) sample_one
        (Reachable.construct (fun k => k) sample_empty rfl) rfl) rfl,
    C9_assign
      (Reachable.insert sample_empty (3, 4) sample_one
        (Reachable.construct (fun k => k) sample_empty rfl) rfl)
      (Reachable.insert sample_one (70, 5) sample_two
        (Reachable.insert sample_empty (3, 4) sample_one
          (Reachable.construct (fun k => k) sample_empty rfl) rfl) rfl)⟩

end Witnesses
end RobinHood

namespace RobinHood
section Behaviour
variable {K V : Type} [Inhabited K] [Inhabited V]

theorem construct_capacity {hasher : K → Nat} {s : HashMap K V}
    (h : construct hasher = some s) : s.capacity_ = 67 ∧ s.table_.length = 67 := by
  obtain ⟨hinv, _, _, _, hidx⟩ := construct_inv h
  have h1 := hinv.capacity_eq
  rw [hidx] at h1
  have h2 : s.capacity_ = 67 := by
    have : PRIME_CAPS_[0]? = some 67 := rfl
    rw [this] at h1
    exact (Option.some.inj h1).symm
  exact ⟨h2, by rw [hinv.core.length_eq, h2]⟩

variable [DecidableEq K]

/-- C13 (erasing an absent key): in a reachable state in which `find(k)` is `end()`,
`erase(k)` returns the state unchanged - bucket array, `size_`, `cap_index_` and
`capacity_`; on a freshly constructed container `erase(k)` returns it with size 0
and capacity 67. -/
theorem C13_erase_absent_unchanged {s : HashMap K V} (hs : Reachable s) {k : K}
    (hf : find s k = some (end_ s)) :
    (∃ s' : HashMap K V, erase s k = some s' ∧ s' = s ∧ s'.table_ = s.table_ ∧
      s'.size_ = s.size_ ∧ s'.cap_index_ = s.cap_index_ ∧ s'.capacity_ = s.capacity_) ∧
    (∀ (hasher : K → Nat) (s0 : HashMap K V), construct hasher = some s0 →
      ∃ s1 : HashMap K V, erase s0 k = some s1 ∧ size s1 = 0 ∧ s1.capacity_ = 67) := by
  have hinv := hs.inv
  have hab := (find_eq_end_iff hinv.core hinv.size_lt k).mp hf
  refine ⟨⟨s, erase_of_absent hinv.core hinv.size_lt hab, rfl, rfl, rfl, rfl, rfl⟩, ?_⟩
  intro hasher s0 h0
  obtain ⟨hinv0, hsz, hen, _⟩ := construct_inv h0
  have hab0 : Absent s0.table_ k := by
    rw [absent_iff, hen]; intro v hv; simp at hv
  exact ⟨s0, erase_of_absent hinv0.core hinv0.size_lt hab0, hsz, (construct_capacity h0).1⟩

/-- C14 (clear): for every state, `clear()` gives `size() = 0`, `cap_index_ = 0`,
`capacity_ = 67`, a table of 67 empty buckets, `find(k) = end()` for every key,
`begin() = end()` and an empty traversal; it is the state the constructor
`HashMap(hasher)` builds for the same hash function. -/
theorem C14_clear_resets (s : HashMap K V) :
    size (clear s) = 0 ∧ (clear s).cap_index_ = 0 ∧ (clear s).capacity_ = 67 ∧
      (clear s).table_.length = 67 ∧ (∀ b ∈ (clear s).table_, b.empty = true) ∧
      (∀ k, find (clear s) k = some (end_ (clear s))) ∧
      begin_ (clear s) = some (end_ (clear s)) ∧ iterate (clear s) = some [] ∧
      construct s.hasher_ = some (clear s) := by
  have hinv := clear_inv s
  refine ⟨rfl, rfl, rfl, rfl, ?_, ?_, rfl, rfl, rfl⟩
  · intro b hb
    have : (clear s).table_ = List.replicate 67 default := rfl
    rw [this] at hb
    rw [List.eq_of_mem_replicate hb]
    rfl
  · intro k
    refine (find_eq_end_iff hinv.core hinv.size_lt k).mpr ?_
    rw [absent_iff]
    intro v hv
    have : entries (clear s).table_ = [] := entries_replicate_empty _ _ rfl
    rw [this] at hv
    simp at hv

/-- C15 (probe distance): in a reachable state the distance stored in an occupied
bucket at offset `p` holding key `k` is `(p - hash(k) mod capacity) mod capacity`,
both computed in the natural numbers (with `capacity` added before subtracting) and
in the integers. -/
theorem C15_probe_distance {s : HashMap K V} (hs : Reachable s) {p : Nat} {b : Bucket K V}
    (hp : s.table_[p]? = some b) (ho : b.empty = false) :
    b.distance = (p + s.capacity_ - s.hasher_ b.item.1 % s.capacity_) % s.capacity_ ∧
    (b.distance : Int) =
      ((p : Int) - ((s.hasher_ b.item.1 % s.capacity_ : Nat) : Int)) % (s.capacity_ : Int) := by
  have hinv := hs.inv
  have hhome := hinv.core.table.home p b hp ho
  have hd := hinv.core.table.distance_lt (hinv.core.hasEmpty hinv.size_lt) hp ho
  rw [hinv.core.length_eq] at hhome hd
  have hn : 0 < s.capacity_ := by omega
  have hr : s.hasher_ b.item.1 % s.capacity_ < s.capacity_ := Nat.mod_lt _ hn
  rw [Nat.add_mod, Nat.mod_eq_of_lt (show b.distance < s.capacity_ by omega)] at hhome
  generalize s.hasher_ b.item.1 % s.capacity_ = r at hr hhome
  generalize s.capacity_ = n at hd hn hr hhome
  rcases Nat.lt_or_ge (r + b.distance) n with h | h
  · rw [Nat.mod_eq_of_lt h] at hhome
    constructor
    · rw [show p + n - r = b.distance + n by omega, Nat.add_mod_right,
        Nat.mod_eq_of_lt (by omega)]
    · rw [show (p : Int) - (r : Int) = (b.distance : Int) by omega]
      exact (Int.emod_eq_of_lt (by omega) (by omega)).symm
  · rw [Nat.mod_eq_sub_mod h, Nat.mod_eq_of_lt (by omega)] at hhome
    constructor
    · rw [show p + n - r = b.distance by omega, Nat.mod_eq_of_lt (by omega)]
    · rw [show (p : Int) - (r : Int) = (b.distance : Int) + (-1) * (n : Int) by omega,
        Int.add_mul_emod_self]
      exact (Int.emod_eq_of_lt (by omega) (by omega)).symm

/-- C16 (early termination never misses): in a reachable state, for an occupied bucket
at offset `p` holding key `k`, `find_index(k)` returns `p`, not the sentinel
`capacity_`; the probe walk from the ideal slot of `k` reaches `p` after
`distance` steps and every bucket on it is occupied with a stored distance at least
the number of steps taken to reach it. -/
theorem C16_lookup_never_misses {s : HashMap K V} (hs : Reachable s) {p : Nat}
    {b : Bucket K V} (hp : s.table_[p]? = some b) (ho : b.empty = false) :
    find_index s b.item.1 = some p ∧ p ≠ s.capacity_ ∧
    (mod_hash_ s b.item.1 + b.distance) % s.capacity_ = p ∧
    ∀ j, j ≤ b.distance → ∃ c : Bucket K V,
      s.table_[(mod_hash_ s b.item.1 + j) % s.capacity_]? = some c ∧ c.empty = false ∧
        j ≤ c.distance := by
  have hinv := hs.inv
  have hpl := length_pos_of_getElem? hp
  have hlen := hinv.core.length_eq
  refine ⟨find_index_of_mem hinv.core hinv.size_lt hp ho, by omega, ?_, ?_⟩
  · unfold mod_hash_
    rw [Nat.mod_add_mod, ← hlen]
    exact hinv.core.table.home p b hp ho
  · intro j hj
    unfold mod_hash_
    rw [Nat.mod_add_mod, ← hlen]
    exact hinv.core.table.chain' hp ho hj

/-- C20 (erase loses no other entry): in a reachable state `erase(k)` returns a state
in which every key other than `k` is found exactly when it was found before, with
the same value - whether its entry was shifted back, also from bucket 0 to the last
bucket, or the table was rebuilt by a shrink rehash. -/
theorem C20_erase_frame {s : HashMap K V} (hs : Reachable s) (k : K) {k' : K}
    (hk : k' ≠ k) :
    ∃ s' : HashMap K V, erase s k = some s' ∧
      (find s' k' = some (end_ s') ↔ find s k' = some (end_ s)) ∧
      ∀ v', (∃ it, find s' k' = some it ∧ it ≠ end_ s' ∧ deref s' it = some (k', v')) ↔
        (∃ it, find s k' = some it ∧ it ≠ end_ s ∧ deref s it = some (k', v')) := by
  have hinv := hs.inv
  have key : ∃ s' : HashMap K V, erase s k = some s' ∧ Inv s' ∧
      ∀ v', (k', v') ∈ entries s'.table_ ↔ (k', v') ∈ entries s.table_ := by
    rcases erase_cases hinv k with ⟨_, h1⟩ | ⟨v, s', h1, hs', _, hperm, _⟩
    · exact ⟨s, h1, hinv, fun _ => Iff.rfl⟩
    · refine ⟨s', h1, hs', fun v' => ?_⟩
      rw [hperm.mem_iff, List.mem_cons]
      constructor
      · exact Or.inr
      · rintro (h2 | h2)
        · exact absurd (congrArg Prod.fst h2) hk
        · exact h2
  obtain ⟨s', h1, hinv', hmem⟩ := key
  refine ⟨s', h1, ?_, fun v' => ?_⟩
  · rw [find_eq_end_iff hinv'.core hinv'.size_lt, find_eq_end_iff hinv.core hinv.size_lt,
      absent_iff, absent_iff]
    exact forall_congr' (fun v' => not_congr (hmem v'))
  · rw [find_deref_iff hinv'.core hinv'.size_lt, find_deref_iff hinv.core hinv.size_lt]
    exact hmem v'

end Behaviour
end RobinHood

namespace RobinHood
section Termination
variable {K V : Type}

/-- The probe loop of `insert` stops at the latest at an empty bucket. -/
theorem probe_total {t : List (Bucket K V)} {e : Nat} {be : Bucket K V}
    (hbe : t[e]? = some be) (hempty : be.empty = true) :
    ∀ (fuel i d : Nat), i < t.length → gap t.length i e < fuel →
      ∃ (i' d' : Nat), probe t fuel i d = some (i', d') ∧ i' < t.length ∧
        gap t.length i' e ≤ gap t.length i e := by
  have hel := length_pos_of_getElem? hbe
  intro fuel
  induction fuel with
  | zero => intro i d _ hg; omega
  | succ fuel ih =>
    intro i d hi hg
    unfold probe
    rw [List.getElem?_eq_getElem hi]
    simp only
    split_ifs with h1
    · have hne : i ≠ e := by
        rintro rfl
        rw [List.getElem?_eq_getElem hi] at hbe
        cases hbe
        simp [hempty] at h1
      have hgs := gap_step hi hel hne
      obtain ⟨i', d', hp, hi', hg'⟩ := ih _ (d + 1) (wrap_succ_lt hi) (by omega)
      exact ⟨i', d', hp, hi', by omega⟩
    · exact ⟨i, d, rfl, hi, le_refl _⟩

/-- The insertion walk - probe loop and displacement recursion - returns on every
table with an empty bucket, whatever entry it carries. -/
theorem insert_at_total {e : Nat} :
    ∀ (fuel : Nat) (t : List (Bucket K V)) (item : K × V) (d index : Nat),
      (∃ be : Bucket K V, t[e]? = some be ∧ be.empty = true) →
      wrap t.length index < t.length → gap t.length (wrap t.length index) e < fuel →
      ∃ t' : List (Bucket K V), insert_at fuel t item d index = some t' := by
  intro fuel
  induction fuel with
  | zero => intro t item d index _ _ hg; omega
  | succ fuel ih =>
    intro t item d index ⟨be, hbe, hempty⟩ hi hg
    have hel := length_pos_of_getElem? hbe
    obtain ⟨i', d', hp, hi', hg'⟩ := probe_total hbe hempty (t.length + 1) _ d hi
      (by have := gap_lt hi hel; omega)
    unfold insert_at
    simp only [hp, List.getElem?_eq_getElem hi']
    split_ifs with hpe
    · exact ⟨_, rfl⟩
    · have hne : i' ≠ e := by
        rintro rfl
        rw [List.getElem?_eq_getElem hi'] at hbe
        cases hbe
        exact hpe hempty
      have hgs := gap_step hi' hel hne
      have hlen := set_length t i' item d'
      exact ih _ _ _ _ ⟨be, by rw [set_getElem?_ne _ _ hne]; exact hbe, hempty⟩
        (by rw [hlen]; exact wrap_succ_lt hi') (by rw [hlen]; omega)

variable [DecidableEq K] [Inhabited K] [Inhabited V]

/-- C19 (termination): on a state satisfying the data-model invariants, for every key
the probe loop of `find_index` returns, the probe loop of `insert` returns, the
insertion walk with its displacement recursion returns, and for every occupied
bucket the backward-shift loop of `erase` returns - each with the fuel its caller
hands out, the walks wrapping around the end of the table included; `find` and
`erase` return as a whole, and `insert` has no result only at the end of the
capacity schedule. -/
theorem C19_loops_terminate {s : HashMap K V} (hs : Inv s) (k : K) (v : V) :
    (∃ r, find_loop s.table_ s.capacity_ k (s.table_.length + 1) (mod_hash_ s k) 0 = some r) ∧
    (∃ i d, probe s.table_ (s.table_.length + 1)
      (wrap s.table_.length (mod_hash_ s k)) 0 = some (i, d)) ∧
    (∃ t, insert_at s.table_.length s.table_ (k, v) 0 (mod_hash_ s k) = some t) ∧
    (∀ (p : Nat) (b : Bucket K V), s.table_[p]? = some b → b.empty = false →
      ∃ t, shift_loop (s.table_.set p { b with empty := true }).length
        (s.table_.set p { b with empty := true }) p
        (wrap (s.table_.set p { b with empty := true }).length (p + 1)) = some t) ∧
    (∃ it, find s k = some it) ∧ (∃ s', erase s k = some s') ∧
    (insert s (k, v) = none → Exhausts s) := by
  obtain ⟨e, be, hbe, hempty⟩ := hs.core.hasEmpty hs.size_lt
  have hel := length_pos_of_getElem? hbe
  have hn : 0 < s.table_.length := by omega
  have hi : mod_hash_ s k < s.table_.length := by
    unfold mod_hash_; rw [← hs.core.length_eq]; exact Nat.mod_lt _ hn
  have hw : wrap s.table_.length (mod_hash_ s k) = mod_hash_ s k := wrap_of_lt hi
  have hg := gap_lt hi hel
  refine ⟨?_, ?_, ?_, ?_, ?_, ?_, ?_⟩
  · exact find_loop_total hbe hempty _ _ 0 hi (by omega)
  · obtain ⟨i, d, h, _⟩ := probe_total hbe hempty (s.table_.length + 1)
      (wrap s.table_.length (mod_hash_ s k)) 0 (by rw [hw]; exact hi) (by rw [hw]; omega)
    exact ⟨i, d, h⟩
  · exact insert_at_total (e := e) _ _ _ _ _ ⟨be, hbe, hempty⟩ (by rw [hw]; exact hi)
      (by rw [hw]; exact hg)
  · intro p b hp ho
    obtain ⟨t, h, _⟩ := erase_table hs.core.table (hs.core.hasEmpty hs.size_lt) hp ho
    rw [List.length_set]
    exact ⟨t, h⟩
  · obtain ⟨it, h, _⟩ := find_total hs.core hs.size_lt k
    exact ⟨it, h⟩
  · rcases erase_cases hs k with ⟨_, h1⟩ | ⟨_, s', h1, _⟩
    · exact ⟨s, h1⟩
    · exact ⟨s', h1⟩
  · intro h
    rcases insert_cases hs (k, v) with ⟨_, h1⟩ | ⟨_, hex, _⟩ | ⟨_, _, s', h1, _⟩
    · rw [h1] at h; cases h
    · exact hex
    · rw [h1] at h; cases h

end Termination
end RobinHood

namespace RobinHood
section ScheduleSteps
variable {K V : Type} [DecidableEq K] [Inhabited K] [Inhabited V]

/-- Below the growth threshold the sequential insertion of new keys does not depend on
how many nested growths are allowed. -/
theorem foldlM_fuel_irrelevant (f g : Nat) :
    ∀ (items : List (K × V)) (s : HashMap K V), Core s → (items.map Prod.fst).Nodup →
      (∀ x ∈ items, Absent s.table_ x.1) → 10 * (s.size_ + items.length) < 9 * s.capacity_ →
      items.foldlM (insert_fuel f) s = items.foldlM (insert_fuel g) s := by
  intro items
  induction items with
  | nil => intro s _ _ _ _; rfl
  | cons x xs ih =>
    intro s hs hnd hab hload
    rw [List.map_cons, List.nodup_cons] at hnd
    rw [List.length_cons] at hload
    obtain ⟨s1, h1, hs1, hsz1, hp1, _, hc1, _⟩ :=
      insert_fuel_no_growth f hs (hab x (List.mem_cons_self _ _)) (by omega)
    obtain ⟨s2, h2, _⟩ :=
      insert_fuel_no_growth g hs (hab x (List.mem_cons_self _ _)) (by omega)
    obtain ⟨t, _, _, _, h3, _⟩ := insert_fuel_absent hs (by omega) (hab x (List.mem_cons_self _ _))
    have e1 := h3 (by omega) f
    have e2 := h3 (by omega) g
    have h12 : s1 = s2 := by
      rw [e1] at h1; rw [e2] at h2
      exact (Option.some.inj h1).symm.trans (Option.some.inj h2)
    subst h12
    have hab1 : ∀ y ∈ xs, Absent s1.table_ y.1 := by
      intro y hy
      rw [absent_iff]
      intro v hv
      rcases List.mem_cons.mp (hp1.mem_iff.mp hv) with h | h
      · have hy' : y.1 ∈ xs.map Prod.fst := List.mem_map_of_mem Prod.fst hy
        rw [← h] at hnd
        exact hnd.1 hy'
      · exact absent_iff.mp (hab y (List.mem_cons_of_mem _ hy)) v h
    rw [List.foldlM_cons, List.foldlM_cons, h1, h2]
    exact ih s1 hs1 hnd.2 hab1 (by rw [hsz1, hc1]; omega)

/-- A rehash at a capacity that holds the entries below the growth threshold does not
depend on how many nested growths its reinsertion is allowed: it uses none. -/
theorem rehash_fuel_irrelevant (f g : Nat) {s : HashMap K V} {c : Nat}
    (ht : TableInv s.hasher_ s.table_) (h : PRIME_CAPS_[s.cap_index_]? = some c)
    (hload : 10 * (entries s.table_).length < 9 * c) :
    rehash_ (insert_fuel f) s = rehash_ (insert_fuel g) s := by
  obtain ⟨s0, h0, hs0, hsz0, he0, _, hc0, _⟩ := initialize_spec h
  have hab : ∀ x ∈ entries s.table_, Absent s0.table_ x.1 := by
    intro x _
    rw [absent_iff, he0]
    intro v hv
    simp at hv
  unfold rehash_
  rw [iterate_eq]
  simp only [indexed_map_snd]
  unfold create_
  rw [h0]
  exact foldlM_fuel_irrelevant f g _ s0 hs0 ht.nodup_keys hab (by rw [hsz0, hc0]; omega)

/-- One level of growth is all `insert` ever uses: the reinsertion inside `rehash_`
never triggers a nested growth. -/
theorem insert_fuel_one {s : HashMap K V} (hs : Inv s) (item : K × V) :
    insert_fuel 1 s item = insert s item := by
  rcases absent_or_present s.table_ item.1 with hab | ⟨p, b, hp, hbo, hk⟩
  · obtain ⟨t, hlen, ht, hperm, h1, h2⟩ := insert_fuel_absent hs.core hs.size_lt hab
    by_cases hov : 9 * s.capacity_ ≤ 10 * (s.size_ + 1)
    · have e1 := (h2 hov).2 0
      have e2 : insert s item = rehash_ (insert_fuel 15)
          { s with table_ := t, size_ := s.size_ + 1, cap_index_ := s.cap_index_ + 1 } :=
        (h2 hov).2 15
      rw [e1, e2]
      rcases Nat.lt_or_ge (s.cap_index_ + 1) PRIME_CAPS_.length with h | h
      · obtain ⟨c', hc'⟩ := sched_succ h
        have hnext := sched_next hs.capacity_eq hc'
        have hup := hs.upper
        have hsz : (entries t).length = s.size_ + 1 := by
          rw [hperm.length_eq, List.length_cons, hs.core.size_eq]
        exact rehash_fuel_irrelevant 0 15
          (s := { s with table_ := t, size_ := s.size_ + 1, cap_index_ := s.cap_index_ + 1 })
          ht hc' (by simp only; omega)
      · rw [rehash_none _ (by simpa using h), rehash_none _ (by simpa using h)]
    · have hno : 10 * (s.size_ + 1) < 9 * s.capacity_ := by omega
      rw [h1 hno 1]
      exact (h1 hno _).symm
  · have h1 := insert_fuel_of_mem 1 hs.core hs.size_lt hp hbo item.2
    have h2 := insert_fuel_of_mem PRIME_CAPS_.length hs.core hs.size_lt hp hbo item.2
    rw [hk] at h1 h2
    rw [h1]
    exact h2.symm

/-- C18 (one schedule step per call): in a reachable state `erase` returns with
`cap_index_` unchanged or, when it was positive, one less; every state `insert`
returns has `cap_index_` unchanged or one more; an `insert` without result is one
that incremented `cap_index_` once, to the length of the schedule, and stopped in the
rehash entered there; and `insert` behaves as `insert_fuel 1`, whose reinsertion
inside `rehash_` is not allowed any growth. -/
theorem C18_one_schedule_step {s : HashMap K V} (hs : Reachable s) :
    (∀ k, ∃ s' : HashMap K V, erase s k = some s' ∧
      (s'.cap_index_ = s.cap_index_ ∨ (0 < s.cap_index_ ∧ s'.cap_index_ + 1 = s.cap_index_))) ∧
    (∀ item (s' : HashMap K V), insert s item = some s' →
      s'.cap_index_ = s.cap_index_ ∨ s'.cap_index_ = s.cap_index_ + 1) ∧
    (∀ item, insert s item = none → s.cap_index_ + 1 = PRIME_CAPS_.length ∧
      ∃ t : List (Bucket K V), insert s item = rehash_ (insert_fuel 0)
        { s with table_ := t, size_ := s.size_ + 1, cap_index_ := s.cap_index_ + 1 }) ∧
    (∀ item, insert_fuel 1 s item = insert s item) := by
  have hinv := hs.inv
  refine ⟨fun k => ?_, fun item s' h => ?_, fun item h => ?_, fun item => insert_fuel_one hinv item⟩
  · rcases erase_cases hinv k with ⟨_, h1⟩ | ⟨_, s', h1, _, _, _, _, hidx⟩
    · exact ⟨s, h1, Or.inl rfl⟩
    · refine ⟨s', h1, ?_⟩
      rw [hidx]
      split_ifs with hc
      · exact Or.inr ⟨hc.1, by omega⟩
      · exact Or.inl rfl
  · rcases insert_cases hinv item with ⟨_, h1⟩ | ⟨_, _, h1⟩ | ⟨_, _, s1, h1, _, _, _, _, hidx⟩
    · rw [h1] at h; cases h; exact Or.inl rfl
    · rw [h1] at h; cases h
    · rw [h1] at h; cases h
      rw [hidx]
      split_ifs
      · exact Or.inr rfl
      · exact Or.inl rfl
  · rcases insert_cases hinv item with ⟨_, h1⟩ | ⟨hab, hex, _⟩ | ⟨_, _, s1, h1, _⟩
    · rw [h1] at h; cases h
    · obtain ⟨t, _, _, _, _, h2⟩ := insert_fuel_absent hinv.core hinv.size_lt hab
      refine ⟨hex.1, t, ?_⟩
      rw [← insert_fuel_one hinv item]
      exact (h2 hex.2).2 0
    · rw [h1] at h; cases h

/-- Capacity-index invariant for the calls that return: from a state satisfying the
data-model invariants, every state returned by `insert`, `erase` or `operator[]`,
and the state after `clear`, has `cap_index_ < 16` and
`capacity_ = PRIME_CAPS_[cap_index_]`. -/
theorem cap_index_invariant {s : HashMap K V} (hs : Inv s) :
    (∀ item (s' : HashMap K V), insert s item = some s' →
      s'.cap_index_ < PRIME_CAPS_.length ∧ PRIME_CAPS_[s'.cap_index_]? = some s'.capacity_) ∧
    (∀ k (s' : HashMap K V), erase s k = some s' →
      s'.cap_index_ < PRIME_CAPS_.length ∧ PRIME_CAPS_[s'.cap_index_]? = some s'.capacity_) ∧
    (∀ k (s' : HashMap K V) (it : Nat), subscript s k = some (s', it) →
      s'.cap_index_ < PRIME_CAPS_.length ∧ PRIME_CAPS_[s'.cap_index_]? = some s'.capacity_) ∧
    ((clear s).cap_index_ < PRIME_CAPS_.length ∧
      PRIME_CAPS_[(clear s).cap_index_]? = some (clear s).capacity_) := by
  have key : ∀ {s' : HashMap K V}, Inv s' →
      s'.cap_index_ < PRIME_CAPS_.length ∧ PRIME_CAPS_[s'.cap_index_]? = some s'.capacity_ :=
    fun h => ⟨h.cap_index_lt, h.capacity_eq⟩
  refine ⟨fun item s' h => key (insert_inv hs h), fun k s' h => key (erase_inv hs h),
    fun k s' it h => ?_, key (clear_inv s)⟩
  rcases subscript_state h with rfl | h1
  · exact key hs
  · exact key (insert_inv hs h1)

end ScheduleSteps

section ScheduleEndMore

/-- C17, failing input: the container holding the pairs `(i, 0)`, `i < 2066273`,
satisfies the data-model invariants with `cap_index_ = 15`; `insert((2066273, 7))`
enters `rehash_` with `cap_index_ = 16`, where `PRIME_CAPS_[16]` does not exist, and
neither it nor `operator[](2066273)` returns a state. -/
theorem C17_cap_index_leaves_schedule :
    ∃ s : HashMap Nat Nat, construct_range filling_items (fun k => k) = some s ∧ Inv s ∧
      s.cap_index_ = 15 ∧
      (∃ t : List (Bucket Nat Nat), insert s (2066273, 7) = rehash_ (insert_fuel 15)
        { s with table_ := t, size_ := s.size_ + 1, cap_index_ := 16 }) ∧
      PRIME_CAPS_[16]? = none ∧ insert s (2066273, 7) = none ∧
      subscript s 2066273 = none := by
  obtain ⟨s, h1, hr, hex, hiff⟩ := filling_state
  have hinv := hr.inv
  have hab := filling_absent hiff
  have hidx : s.cap_index_ = 15 := by
    have := hex.1
    simp only [PRIME_CAPS_, List.length_cons, List.length_nil] at this
    omega
  have hf := (find_eq_end_iff hinv.core hinv.size_lt _).mpr hab
  obtain ⟨t, _, _, _, _, h2⟩ := insert_fuel_absent hinv.core hinv.size_lt
    (show Absent s.table_ ((2066273, 7) : Nat × Nat).1 from hab)
  refine ⟨s, h1, hinv, hidx, ⟨t, ?_⟩, rfl, insert_fuel_exhausts _ hinv hab hex,
    (subscript_spec hr 2066273).2.2 hf hex⟩
  have := (h2 hex.2).2 15
  rw [hidx] at this
  exact this

end ScheduleEndMore
end RobinHood

namespace RobinHood
section Scenarios
variable {K V : Type} [DecidableEq K] [Inhabited K] [Inhabited V]

/-- Erasing a sequence of keys from a state satisfying the invariants returns, and keeps
exactly the entries whose key is not in the sequence. -/
theorem foldlM_erase_spec :
    ∀ (order : List K) (s : HashMap K V), Inv s →
      ∃ s' : HashMap K V, order.foldlM erase s = some s' ∧ Inv s' ∧ s'.hasher_ = s.hasher_ ∧
        ∀ k v, (k, v) ∈ entries s'.table_ ↔ ((k, v) ∈ entries s.table_ ∧ k ∉ order) := by
  intro order
  induction order with
  | nil =>
    intro s hs
    exact ⟨s, rfl, hs, rfl, fun k v => by simp⟩
  | cons k ks ih =>
    intro s hs
    rcases erase_cases hs k with ⟨hab, h1⟩ | ⟨v0, s1, h1, hs1, _, hperm, hh1, _⟩
    · obtain ⟨s', h2, hs2, hh2, hiff⟩ := ih s hs
      refine ⟨s', by rw [List.foldlM_cons, h1]; exact h2, hs2, hh2, fun k' v => ?_⟩
      rw [hiff k' v, List.mem_cons]
      constructor
      · rintro ⟨h3, h4⟩
        refine ⟨h3, ?_⟩
        rintro (rfl | h5)
        · exact absent_iff.mp hab v h3
        · exact h4 h5
      · rintro ⟨h3, h4⟩
        exact ⟨h3, fun h5 => h4 (Or.inr h5)⟩
    · have hnd := hs.core.table.nodup_keys
      rw [(hperm.map Prod.fst).nodup_iff, List.map_cons, List.nodup_cons] at hnd
      have hmem : ∀ k' v, (k', v) ∈ entries s1.table_ ↔
          ((k', v) ∈ entries s.table_ ∧ k' ≠ k) := by
        intro k' v
        rw [hperm.mem_iff, List.mem_cons]
        constructor
        · intro h3
          refine ⟨Or.inr h3, ?_⟩
          intro h4
          rw [h4] at h3
          exact hnd.1 (List.mem_map.mpr ⟨(k, v), h3, rfl⟩)
        · rintro ⟨h3 | h3, h4⟩
          · exact absurd (congrArg Prod.fst h3) h4
          · exact h3
      obtain ⟨s', h2, hs2, hh2, hiff⟩ := ih s1 hs1
      refine ⟨s', by rw [List.foldlM_cons, h1]; exact h2, hs2, by rw [hh2, hh1], fun k' v => ?_⟩
      rw [hiff k' v, hmem, List.mem_cons]
      tauto

/-- The keys stored after a sequence of insertions were stored before or are keys of
the sequence. -/
theorem foldlM_insert_keys :
    ∀ (items : List (K × V)) (s s' : HashMap K V), Inv s → items.foldlM insert s = some s' →
      ∀ k v, (k, v) ∈ entries s'.table_ → (k, v) ∈ entries s.table_ ∨ k ∈ items.map Prod.fst := by
  intro items
  induction items with
  | nil =>
    intro s s' _ h k v hm
    cases h
    exact Or.inl hm
  | cons x xs ih =>
    intro s s' hs h k v hm
    rw [List.foldlM_cons] at h
    rcases insert_cases hs x with ⟨_, h1⟩ | ⟨_, _, h1⟩ | ⟨_, _, s1, h1, hs1, _, hperm, _⟩
    · rw [h1] at h
      rcases ih s s' hs h k v hm with h2 | h2
      · exact Or.inl h2
      · exact Or.inr (List.mem_cons_of_mem _ h2)
    · rw [h1] at h; cases h
    · rw [h1] at h
      rcases ih s1 s' hs1 h k v hm with h2 | h2
      · rcases List.mem_cons.mp (hperm.mem_iff.mp h2) with h3 | h3
        · right
          rw [List.map_cons, ← h3]
          exact List.mem_cons_self _ _
        · exact Or.inl h3
      · exact Or.inr (List.mem_cons_of_mem _ h2)

/-- C12 (erase-all restores the initial shape): for pairwise different keys inserted
into a freshly constructed container, erasing all of them, in any order, returns a
state with `size() = 0`, `capacity_ = 67` and `cap_index_ = 0`. -/
theorem C12_erase_all_restores {hasher : K → Nat} {items : List (K × V)} {s0 s : HashMap K V}
    {order : List K} (h0 : construct hasher = some s0) (hnd : (items.map Prod.fst).Nodup)
    (hins : items.foldlM insert s0 = some s) (hord : order.Perm (items.map Prod.fst)) :
    ∃ s' : HashMap K V, order.foldlM erase s = some s' ∧ size s' = 0 ∧ s'.capacity_ = 67 ∧
      s'.cap_index_ = 0 := by
  have _ := hnd
  obtain ⟨hinv0, _, hen0, _⟩ := construct_inv h0
  have hr : Reachable s := foldlM_reachable items s0 s (Reachable.construct hasher s0 h0) hins
  obtain ⟨s', h1, hinv', _, hiff⟩ := foldlM_erase_spec order s hr.inv
  have hempty : entries s'.table_ = [] := by
    rw [List.eq_nil_iff_forall_not_mem]
    rintro ⟨k, v⟩ hm
    obtain ⟨h2, h3⟩ := (hiff k v).mp hm
    rcases foldlM_insert_keys items s0 s hinv0 hins k v h2 with h4 | h4
    · rw [hen0] at h4; simp at h4
    · exact h3 (hord.mem_iff.mpr h4)
  have hsz : s'.size_ = 0 := by rw [hinv'.core.size_eq, hempty]; rfl
  have hidx : s'.cap_index_ = 0 := by
    rcases hinv'.lower with h | h
    · exact h
    · have := hinv'.capacity_bounds
      omega
  have hcap : s'.capacity_ = 67 := by
    have h2 := hinv'.capacity_eq
    rw [hidx] at h2
    have : PRIME_CAPS_[0]? = some 67 := rfl
    rw [this] at h2
    exact (Option.some.inj h2).symm
  exact ⟨s', h1, hsz, hcap, hidx⟩

/-- C11 (first growth): with 61 pairwise different keys inserted one after the other
into a freshly constructed container (capacity 67), the capacity is 67 after each of
the first 60 inserts, and the 61st - the first with `10 * size >= 9 * 67` - returns
the state with `capacity_ = 137`, `cap_index_ = 1`, `size() = 61`, in which every
inserted pair is found and a traversal yields the 61 pairs, each once. -/
theorem C11_first_growth (hasher : K → Nat) {items : List (K × V)}
    (hnd : (items.map Prod.fst).Nodup) (hlen : items.length = 61) :
    ∃ s0 : HashMap K V, construct hasher = some s0 ∧ s0.capacity_ = 67 ∧
      (∀ n, n ≤ 60 → ∃ sn : HashMap K V, (items.take n).foldlM insert s0 = some sn ∧
        sn.capacity_ = 67 ∧ sn.cap_index_ = 0 ∧ size sn = n) ∧
      ∃ s : HashMap K V, items.foldlM insert s0 = some s ∧ s.capacity_ = 137 ∧
        s.cap_index_ = 1 ∧ size s = 61 ∧
        (∀ x ∈ items, ∃ it, find s x.1 = some it ∧ it ≠ end_ s ∧ deref s it = some x) ∧
        ∃ visited : List (Nat × (K × V)), iterate s = some visited ∧
          (visited.map Prod.snd).Perm items := by
  obtain ⟨s0, h0, hcore0, hsz0, hen0, _, hcap0, hidx0⟩ :=
    initialize_spec (s := (⟨hasher, [], 0, 0, 0⟩ : HashMap K V)) (c := 67) rfl
  have hidx0' : s0.cap_index_ = 0 := hidx0
  have hab0 : ∀ k, Absent s0.table_ k := fun k => by
    rw [absent_iff, hen0]; intro v hv; simp at hv
  have hpre : ∀ n, n ≤ 60 → ∃ sn : HashMap K V, (items.take n).foldlM insert s0 = some sn ∧
      Core sn ∧ sn.capacity_ = 67 ∧ sn.cap_index_ = 0 ∧ sn.size_ = n ∧
      (entries sn.table_).Perm (items.take n) := by
    intro n hn
    have hl : (items.take n).length = n := by rw [List.length_take, hlen]; omega
    obtain ⟨sn, h1, hc, hsz, hp, _, hcap, hidx⟩ :=
      foldlM_insert_no_growth PRIME_CAPS_.length (items.take n) s0 hcore0
        ((List.take_sublist n items).map Prod.fst |>.nodup hnd) (fun x _ => hab0 x.1)
        (by rw [hsz0, hcap0, hl]; omega)
    refine ⟨sn, h1, hc, by rw [hcap, hcap0], by rw [hidx, hidx0'], by rw [hsz, hsz0, hl]; omega, ?_⟩
    simpa [hen0] using hp
  refine ⟨s0, h0, hcap0, fun n hn => ?_, ?_⟩
  · obtain ⟨sn, h1, _, h2, h3, h4, _⟩ := hpre n hn
    exact ⟨sn, h1, h2, h3, h4⟩
  · obtain ⟨s60, h1, hc, hcap, hidx, hsz, hp⟩ := hpre 60 (le_refl _)
    have hinv60 : Inv s60 :=
      ⟨hc, by rw [hidx, hcap]; rfl, by rw [hsz, hcap]; norm_num, Or.inl hidx⟩
    have hlt : 60 < items.length := by omega
    have hsplit : items = items.take 60 ++ [items[60]] := by
      conv_lhs => rw [← List.take_append_drop 60 items]
      rw [List.drop_eq_getElem_cons hlt, List.drop_eq_nil_of_le (by omega)]
    have hnd' := hnd
    rw [hsplit, List.map_append, List.nodup_append] at hnd'
    have hab : Absent s60.table_ items[60].1 := by
      rw [absent_iff]
      intro v hv
      have h2 : items[60].1 ∈ (items.take 60).map Prod.fst :=
        List.mem_map.mpr ⟨_, hp.mem_iff.mp hv, rfl⟩
      exact hnd'.2.2 h2 (by simp)
    have hne : ¬ Exhausts s60 := by
      rintro ⟨h2, _⟩
      rw [hidx] at h2
      simp [PRIME_CAPS_] at h2
    rcases insert_cases hinv60 items[60] with ⟨h2, _⟩ | ⟨_, h2, _⟩ |
      ⟨_, _, s, h2, hinv, hsz', hperm, _, hidx'⟩
    · exact absurd hab h2
    · exact absurd h2 hne
    · have hidx1 : s.cap_index_ = 1 := by
        rw [hidx', hcap, hsz, hidx]; rfl
      have hcap1 : s.capacity_ = 137 := by
        have h3 := hinv.capacity_eq
        rw [hidx1] at h3
        have : PRIME_CAPS_[1]? = some 137 := rfl
        rw [this] at h3
        exact (Option.some.inj h3).symm
      have hent : (entries s.table_).Perm items := by
        refine hperm.trans ?_
        conv_rhs => rw [hsplit]
        exact (List.Perm.cons _ hp).trans (List.perm_append_singleton _ _).symm
      refine ⟨s, ?_, hcap1, hidx1, by rw [size, hsz', hsz], ?_, ?_⟩
      · conv_lhs => rw [hsplit]
        rw [List.foldlM_append, h1]
        simp only [Option.bind_eq_bind, Option.some_bind, List.foldlM_cons, h2, List.foldlM_nil]
        rfl
      · rintro ⟨k, v⟩ hx
        exact (find_deref_iff hinv.core hinv.size_lt k v).mpr (hent.mem_iff.mpr hx)
      · exact ⟨indexed 0 s.table_, iterate_eq s, by rw [indexed_map_snd]; exact hent⟩

end Scenarios
end RobinHood

namespace RobinHood
section MoreWitnesses

/-- C11 for the identity hash and the 61 pairs `sample_items`. -/
theorem C11_witness :
    (sample_items.map Prod.fst).Nodup ∧ sample_items.length = 61 ∧
      ∃ s0 : HashMap Nat Nat, construct (fun k => k) = some s0 ∧ s0.capacity_ = 67 ∧
        (∀ n, n ≤ 60 → ∃ sn : HashMap Nat Nat,
          (sample_items.take n).foldlM insert s0 = some sn ∧
          sn.capacity_ = 67 ∧ sn.cap_index_ = 0 ∧ size sn = n) ∧
        ∃ s : HashMap Nat Nat, sample_items.foldlM insert s0 = some s ∧ s.capacity_ = 137 ∧
          s.cap_index_ = 1 ∧ size s = 61 ∧
          (∀ x ∈ sample_items,
            ∃ it, find s x.1 = some it ∧ it ≠ end_ s ∧ deref s it = some x) ∧
          ∃ visited : List (Nat × (Nat × Nat)), iterate s = some visited ∧
            (visited.map Prod.snd).Perm sample_items :=
  ⟨by decide, by decide, C11_first_growth (fun k => k) (by decide) (by decide)⟩

/-- C12 for the keys 3 and 70 inserted into `sample_empty` and erased in the order
70, 3. -/
theorem C12_witness :
    construct (fun k => k) = some sample_empty ∧
      (([(3, 4), (70, 5)] : List (Nat × Nat)).map Prod.fst).Nodup ∧
      ([(3, 4), (70, 5)] : List (Nat × Nat)).foldlM insert sample_empty = some sample_two ∧
      ([70, 3] : List Nat).Perm (([(3, 4), (70, 5)] : List (Nat × Nat)).map Prod.fst) ∧
      ∃ s' : HashMap Nat Nat, ([70, 3] : List Nat).foldlM erase sample_two = some s' ∧
        size s' = 0 ∧ s'.capacity_ = 67 ∧ s'.cap_index_ = 0 :=
  ⟨rfl, by decide, rfl, List.Perm.swap 3 70 [],
    C12_erase_all_restores (rfl : construct (fun k => k) = some sample_empty) (by decide)
      (rfl : ([(3, 4), (70, 5)] : List (Nat × Nat)).foldlM insert sample_empty = some sample_two)
      (List.Perm.swap 3 70 [])⟩

/-- C13 at `sample_one` and the absent key 5. -/
theorem C13_witness :
    Reachable sample_one ∧ find sample_one 5 = some (end_ sample_one) ∧
      (∃ s' : HashMap Nat Nat, erase sample_one 5 = some s' ∧ s' = sample_one ∧
        s'.table_ = sample_one.table_ ∧ s'.size_ = sample_one.size_ ∧
        s'.cap_index_ = sample_one.cap_index_ ∧ s'.capacity_ = sample_one.capacity_) ∧
      (∀ (hasher : Nat → Nat) (s0 : HashMap Nat Nat), construct hasher = some s0 →
        ∃ s1 : HashMap Nat Nat, erase s0 5 = some s1 ∧ size s1 = 0 ∧ s1.capacity_ = 67) :=
  ⟨Reachable.insert sample_empty (3, 4) sample_one
      (Reachable.construct (fun k => k) sample_empty rfl) rfl,
    by decide,
    C13_erase_absent_unchanged
      (Reachable.insert sample_empty (3, 4) sample_one
        (Reachable.construct (fun k => k) sample_empty rfl) rfl)
      (by decide)⟩

/-- C15 at bucket 0 of `sample_wrap`, which holds key 133 (ideal slot 66) with
distance 1. -/
theorem C15_witness :
    Reachable sample_wrap ∧ sample_wrap.table_[0]? = some ⟨(133, 2), 1, false⟩ ∧
      (1 : Nat) = (0 + sample_wrap.capacity_ - sample_wrap.hasher_ 133 % sample_wrap.capacity_) %
        sample_wrap.capacity_ ∧
      ((1 : Nat) : Int) =
        (((0 : Nat) : Int) - ((sample_wrap.hasher_ 133 % sample_wrap.capacity_ : Nat) : Int)) %
          (sample_wrap.capacity_ : Int) :=
  ⟨Reachable.insert sample_last (133, 2) sample_wrap
      (Reachable.insert sample_empty (66, 1) sample_last
        (Reachable.construct (fun k => k) sample_empty rfl) rfl) rfl,
    rfl,
    C15_probe_distance
      (Reachable.insert sample_last (133, 2) sample_wrap
        (Reachable.insert sample_empty (66, 1) sample_last
          (Reachable.construct (fun k => k) sample_empty rfl) rfl) rfl)
      (rfl : sample_wrap.table_[0]? = some ⟨(133, 2), 1, false⟩) rfl⟩

/-- C16 at bucket 0 of `sample_wrap`: the probe walk of key 133 starts at bucket 66
and wraps around. -/
theorem C16_witness :
    Reachable sample_wrap ∧ sample_wrap.table_[0]? = some ⟨(133, 2), 1, false⟩ ∧
      find_index sample_wrap 133 = some 0 ∧ 0 ≠ sample_wrap.capacity_ ∧
      (mod_hash_ sample_wrap 133 + 1) % sample_wrap.capacity_ = 0 ∧
      ∀ j, j ≤ 1 → ∃ c : Bucket Nat Nat,
        sample_wrap.table_[(mod_hash_ sample_wrap 133 + j) % sample_wrap.capacity_]? = some c ∧
          c.empty = false ∧ j ≤ c.distance :=
  ⟨Reachable.insert sample_last (133, 2) sample_wrap
      (Reachable.insert sample_empty (66, 1) sample_last
        (Reachable.construct (fun k => k) sample_empty rfl) rfl) rfl,
    rfl,
    C16_lookup_never_misses
      (Reachable.insert sample_last (133, 2) sample_wrap
        (Reachable.insert sample_empty (66, 1) sample_last
          (Reachable.construct (fun k => k) sample_empty rfl) rfl) rfl)
      (rfl : sample_wrap.table_[0]? = some ⟨(133, 2), 1, false⟩) rfl⟩

/-- C18 at `sample_wrap`. -/
theorem C18_witness :
    Reachable sample_wrap ∧
      (∀ k, ∃ s' : HashMap Nat Nat, erase sample_wrap k = some s' ∧
        (s'.cap_index_ = sample_wrap.cap_index_ ∨
          (0 < sample_wrap.cap_index_ ∧ s'.cap_index_ + 1 = sample_wrap.cap_index_))) ∧
      (∀ item (s' : HashMap Nat Nat), insert sample_wrap item = some s' →
        s'.cap_index_ = sample_wrap.cap_index_ ∨ s'.cap_index_ = sample_wrap.cap_index_ + 1) ∧
      (∀ item, insert sample_wrap item = none →
        sample_wrap.cap_index_ + 1 = PRIME_CAPS_.length ∧
        ∃ t : List (Bucket Nat Nat), insert sample_wrap item = rehash_ (insert_fuel 0)
          { sample_wrap with table_ := t, size_ := sample_wrap.size_ + 1,
                             cap_index_ := sample_wrap.cap_index_ + 1 }) ∧
      (∀ item, insert_fuel 1 sample_wrap item = insert sample_wrap item) :=
  ⟨Reachable.insert sample_last (133, 2) sample_wrap
      (Reachable.insert sample_empty (66, 1) sample_last
        (Reachable.construct (fun k => k) sample_empty rfl) rfl) rfl,
    C18_one_schedule_step
      (Reachable.insert sample_last (133, 2) sample_wrap
        (Reachable.insert sample_empty (66, 1) sample_last
          (Reachable.construct (fun k => k) sample_empty rfl) rfl) rfl)⟩

/-- C19 at `sample_wrap` and the key 200, whose walks start at bucket 66 and wrap
around. -/
theorem C19_witness :
    Inv sample_wrap ∧
      (∃ r, find_loop sample_wrap.table_ sample_wrap.capacity_ 200
        (sample_wrap.table_.length + 1) (mod_hash_ sample_wrap 200) 0 = some r) ∧
      (∃ i d, probe sample_wrap.table_ (sample_wrap.table_.length + 1)
        (wrap sample_wrap.table_.length (mod_hash_ sample_wrap 200)) 0 = some (i, d)) ∧
      (∃ t, insert_at sample_wrap.table_.length sample_wrap.table_ (200, 3) 0
        (mod_hash_ sample_wrap 200) = some t) ∧
      (∀ (p : Nat) (b : Bucket Nat Nat), sample_wrap.table_[p]? = some b → b.empty = false →
        ∃ t, shift_loop (sample_wrap.table_.set p { b with empty := true }).length
          (sample_wrap.table_.set p { b with empty := true }) p
          (wrap (sample_wrap.table_.set p { b with empty := true }).length (p + 1)) = some t) ∧
      (∃ it, find sample_wrap 200 = some it) ∧ (∃ s', erase sample_wrap 200 = some s') ∧
      (insert sample_wrap (200, 3) = none → Exhausts sample_wrap) :=
  ⟨(Reachable.insert sample_last (133, 2) sample_wrap
      (Reachable.insert sample_empty (66, 1) sample_last
        (Reachable.construct (fun k => k) sample_empty rfl) rfl) rfl).inv,
    C19_loops_terminate
      (Reachable.insert sample_last (133, 2) sample_wrap
        (Reachable.insert sample_empty (66, 1) sample_last
          (Reachable.construct (fun k => k) sample_empty rfl) rfl) rfl).inv 200 3⟩

/-- C20 at `sample_wrap`: `erase(66)` shifts the entry of key 133 from bucket 0 back to
bucket 66. -/
theorem C20_witness :
    Reachable sample_wrap ∧ (133 : Nat) ≠ 66 ∧
      ∃ s' : HashMap Nat Nat, erase sample_wrap 66 = some s' ∧
        (find s' 133 = some (end_ s') ↔ find sample_wrap 133 = some (end_ sample_wrap)) ∧
        ∀ v', (∃ it, find s' 133 = some it ∧ it ≠ end_ s' ∧ deref s' it = some (133, v')) ↔
          (∃ it, find sample_wrap 133 = some it ∧ it ≠ end_ sample_wrap ∧
            deref sample_wrap it = some (133, v')) :=
  ⟨Reachable.insert sample_last (133, 2) sample_wrap
      (Reachable.insert sample_empty (66, 1) sample_last
        (Reachable.construct (fun k => k) sample_empty rfl) rfl) rfl,
    by decide,
    C20_erase_frame
      (Reachable.insert sample_last (133, 2) sample_wrap
        (Reachable.insert sample_empty (66, 1) sample_last
          (Reachable.construct (fun k => k) sample_empty rfl) rfl) rfl)
      66 (by decide)⟩

end MoreWitnesses
end RobinHood

